import Mathlib

/-!
Verification of the Prisma Util schema aggregation and conflict resolution
engine against its natural-language specification.

The development shallowly embeds the engine's data model and operations:

* JavaScript objects used as string-keyed maps are embedded as association
  lists in insertion order (`jsGet`, `jsSet`, `jsDelete` reproduce property
  read, property assignment — in-place update for an existing key, append
  for a fresh one — and property deletion).
* Values that the source can set to `undefined` while keeping the key
  present (`Object.keys` still lists them) are embedded as `Option` values.
* Composite string keys `file:name` (FileModel) and `file:Model.column`
  (remapper keys) are embedded as structures; this identifies keys exactly
  when files and identifiers contain no colon and column names contain no
  dot, which holds for the strings the tool produces and consumes.
* JavaScript string operations used by the engine (`toLowerCase`,
  `endsWith`, substring search with escaped-literal regexes) are embedded
  as character-list functions with the same semantics.
-/

namespace PrismaUtil

/-- Property read on a JavaScript object embedded as an association list:
`m[k]`, `none` when the key is absent. -/
def jsGet {α β : Type} [DecidableEq α] : List (α × β) → α → Option β
  | [], _ => none
  | e :: rest, k => if e.1 = k then some e.2 else jsGet rest k

/-- Property assignment `m[k] = v`: updates the first entry with key `k` in
place, appends a new entry when the key is absent (JavaScript insertion
order semantics). -/
def jsSet {α β : Type} [DecidableEq α] : List (α × β) → α → β → List (α × β)
  | [], k, v => [(k, v)]
  | e :: rest, k, v => if e.1 = k then (k, v) :: rest else e :: jsSet rest k v

/-- Property deletion (the source uses rest-destructuring
`const { [k]: _, ...rest } = m`): removes every entry with key `k`. -/
def jsDelete {α β : Type} [DecidableEq α] : List (α × β) → α → List (α × β)
  | [], _ => []
  | e :: rest, k => if e.1 = k then jsDelete rest k else e :: jsDelete rest k

/-- Keys of an embedded object. -/
def jsKeys {α β : Type} (m : List (α × β)) : List α := m.map Prod.fst

/-- Key lists produced by `jsSet` from a duplicate-free object stay
duplicate-free (JavaScript objects cannot hold a key twice). -/
def NodupKeys {α β : Type} (m : List (α × β)) : Prop := (jsKeys m).Nodup

/-! ## JavaScript string primitives

The engine compares names with `String.prototype.toLowerCase` /
`endsWith`, and the patch toolchain searches for escaped literal patterns
with `RegExp.prototype.test` (an escaped pattern matches exactly its
literal occurrences). These are embedded on character lists. -/

/-- JavaScript `s.toLowerCase()` (character-wise lowering, which agrees
with the JavaScript behavior on the ASCII identifiers and paths the tool
handles). -/
def strToLower (s : String) : String := ⟨s.data.map Char.toLower⟩

/-- JavaScript `s.endsWith(suffix)`. -/
def strEndsWith (s suffix : String) : Bool := decide (suffix.data <:+ s.data)

/-- A fresh escaped-literal `RegExp(escapeRegex(pat), "gms").test(s)`:
true exactly when `pat` occurs in `s` as a substring. -/
def containsSubstr (s pat : String) : Bool := decide (pat.data <:+: s.data)

/-- JavaScript `parts.join(sep)`. -/
def joinWith (sep : String) : List String → String
  | [] => ""
  | p :: ps => ps.foldl (fun acc x => acc ++ sep ++ x) p

/-- From part_001 `endsWithAny`: first element of `array` that `item` ends
with, case-insensitively; `null` (here `none`) when there is none. -/
def endsWithAny (item : String) (array : List String) : Option String :=
  array.find? (fun test => strEndsWith (strToLower item) (strToLower test))

/-! ## Data model

`FM` embeds the composite key string `file:name` ("FileModel"); `ColKey`
embeds the remapper key string `file:Model.column`. -/

/-- A `file:name` composite key. -/
structure FM where
  file : String
  name : String
deriving DecidableEq, Repr

/-- A `file:Model.column` remapper key. -/
structure ColKey where
  file : String
  model : String
  column : String
deriving DecidableEq, Repr

/-- The `file:Model` part of a remapper key (the source obtains it by
splitting on the colon and the dot). -/
def ColKey.fm (k : ColKey) : FM := ⟨k.file, k.model⟩

/-- Rendering of an `FM` back to its `file:name` key string (used where
the source feeds the key to plain string functions such as
`endsWithAny`). -/
def FM.render (fm : FM) : String := fm.file ++ ":" ++ fm.name

/-- Column type for schema models (parser.ts `Column`). -/
structure Column where
  name : String
  type : String
  constraints : List String
deriving DecidableEq, Repr

/-- Enum type for schemas (parser.ts `Enum`). -/
structure Enum where
  name : String
  values : List String
deriving DecidableEq, Repr

/-- The `item` field of an `Action`. -/
inductive Item where
  | model
  | enum
deriving DecidableEq, Repr

/-- Action type for resolving conflicts (parser.ts `Action`). `remapAct`
carries `from` (a `file:Model.column` key) and `to` (a `file:Model`
key). -/
inductive ActionData where
  | skip (item : Item)
  | rename (newName : String) (item : Item)
  | renameRel (newName : String) (item : Item)
  | remapAct (src : ColKey) (dst : FM) (item : Item)
deriving DecidableEq, Repr

/-- An entry of the `generators` map (only the fields `generateSchema`
reads; the `meta` field is never read back). -/
structure GenInfo where
  code : String
  run : Bool
deriving DecidableEq, Repr

/-- The configuration fields the embedded core reads. Optional features
that the embedded operations never touch when disabled (enhanced
introspection callbacks, default-function / deprecation / take maps,
full-text indexes) are outside this embedding: the embedded engine is the
engine running with those features off. -/
structure Config where
  crossFileRelations : Bool
  extended : List (FM × FM)
deriving DecidableEq, Repr

/-- The mutable `PrismaParser` state the claims are about. `models` maps a
file to its name → full-text map; a model rename can re-install a key with
value `undefined` (`none`) so inner values are `Option String`, and
likewise `modelColumns` values are `Option (List Column)`. `solutions` is
the accumulated queue of one-entry `{fileModel: action}` objects; the
source never clears it. -/
structure Store where
  models : List (String × List (String × Option String))
  modelColumns : List (FM × Option (List Column))
  enums : List (FM × Enum)
  remapper : List (ColKey × FM)
  solutions : List (FM × ActionData)
  config : Config
  generator : String
  datasource : String
  generators : List (String × GenInfo)
deriving DecidableEq, Repr

/-! ## Read accessors (parser.ts) -/

/-- parser.ts `getShadowedModels`: for each remapper entry, the file part
of the key joined with the model part of the value. -/
def getShadowedModels (s : Store) : List FM :=
  s.remapper.map (fun remapped => ⟨remapped.1.file, remapped.2.name⟩)

/-- parser.ts `getExtendedModels`: the values of `config.extended`
(the parents, consumed only as polyfills). -/
def getExtendedModels (s : Store) : List FM :=
  s.config.extended.map Prod.snd

/-- parser.ts `getReplacementModels`: the values of the remapper. -/
def getReplacementModels (s : Store) : List FM :=
  s.remapper.map Prod.snd

/-- parser.ts `getModelsExtended`: the keys of `config.extended`
(the children that get enriched). -/
def getModelsExtended (s : Store) : List FM :=
  s.config.extended.map Prod.fst

/-- JavaScript `s.startsWith(pre)`. -/
def strStartsWith (s pre : String) : Bool := pre.data.isPrefixOf s.data

/-- Whether a column relation-references the bare model name `m`
(parser.ts checks `constraint.startsWith("@relation") && column.type ==
model`). -/
def refersTo (m : String) (c : Column) : Bool :=
  c.constraints.any (fun constraint => strStartsWith constraint "@relation") && c.type == m

/-- parser.ts `getReferredRelations`: all relation columns in models other
than `fileModel` whose type equals `fileModel`'s bare name, paired with
the `file:name` key of the model holding them. Entries whose column list
is `undefined` are skipped (`columns && ...`). -/
def getReferredRelations (s : Store) (fileModel : FM) : List (FM × Column) :=
  (s.modelColumns.filter (fun entry => entry.1 ≠ fileModel)).flatMap
    (fun entry =>
      match entry.2 with
      | none => []
      | some columns =>
        (columns.filter (refersTo fileModel.name)).map (fun column => (entry.1, column)))

/-- parser.ts `canFixCrossFileWithMapper`: the remapper value for a
`file:Model.column` key (`false`, here `none`, when absent). -/
def canFixCrossFileWithMapper (s : Store) (key : ColKey) : Option FM :=
  jsGet s.remapper key

/-- parser.ts `suggest`: push a one-entry solution object. -/
def suggest (s : Store) (item : FM) (action : ActionData) : Store :=
  { s with solutions := s.solutions ++ [(item, action)] }

/-! ## Resolution Engine mutations (parser.ts `remap`, `applyPatches`) -/

/-- The first remapper entry whose key's `file:Model` part equals `old` or
whose target equals `old` (the source iterates `Object.entries` and
breaks at the first of either match). -/
def findRemapped (old : FM) (r : List (ColKey × FM)) : Option (ColKey × FM) :=
  r.find? (fun remapped => decide (remapped.1.fm = old) || decide (remapped.2 = old))

/-- parser.ts `remap`, restricted to the `this.remapper` map: stop at the
first entry matching `old`; a key match deletes the entry and re-adds its
target under the key `newMap.column` (deletion followed by property
assignment, so the moved entry lands at the end unless the new key already
exists, in which case that entry is overwritten in place); a target match
rewrites the entry's target in place. -/
def remapRemapper (old newMap : FM) (r : List (ColKey × FM)) : List (ColKey × FM) :=
  match findRemapped old r with
  | none => r
  | some e =>
    if e.1.fm = old then
      jsSet (jsDelete r e.1) ⟨newMap.file, newMap.name, e.1.column⟩ e.2
    else
      jsSet r e.1 newMap

/-- parser.ts `remap` on the store. The source additionally relocates keys
of the optional `defaultFunctions` / `deprecated` / `take` feature maps
when those features are enabled; those features are outside this embedding
(`Config`). -/
def remap (s : Store) (old newMap : FM) : Store :=
  { s with remapper := remapRemapper old newMap s.remapper }

/-- The `item` carried by an action. -/
def ActionData.itemOf : ActionData → Item
  | .skip item => item
  | .rename _ item => item
  | .renameRel _ item => item
  | .remapAct _ _ item => item

/-- Whether an action is a `remap` action (`action[1].type == "remap"`). -/
def ActionData.isRemap : ActionData → Bool
  | .remapAct _ _ _ => true
  | _ => false

/-- `this.models[fileName][newName] = v` (the file entry exists at every
call site, having just been re-assigned). -/
def setModelText (s : Store) (file name : String) (v : Option String) : Store :=
  match jsGet s.models file with
  | none => s
  | some fileData => { s with models := jsSet s.models file (jsSet fileData name v) }

/-- One step of the rename-rel relation repair: find the referring column
by name in its model, retype it to `newName`, and re-install the model's
columns with every same-named column removed and the retyped column
appended (`filter(...).concat([column])`). A missing column is skipped
(`if(!column) continue`). -/
def rewriteOneRelation (newName : String) (st : Store) (rel : FM × Column) : Store :=
  match (jsGet st.modelColumns rel.1).join with
  | none => st
  | some cols =>
    match cols.find? (fun c => c.name == rel.2.name) with
    | none => st
    | some column =>
      let newCols := (cols.filter (fun c => ¬(c.name == rel.2.name))) ++ [{ column with type := newName }]
      { st with modelColumns := jsSet st.modelColumns rel.1 (some newCols) }

/-- The rename-rel repair loop: the referred relations are computed once,
then each is rewritten in order. -/
def rewriteRelations (s : Store) (key : FM) (newName : String) : Store :=
  (getReferredRelations s key).foldl (rewriteOneRelation newName) s

/-- The `rename` / `rename-rel` tail of `applyPatches`' action loop:
re-install the captured text/columns/enum under the new name, repair
referred relations for `rename-rel`, and cascade the remapper. `oldText`,
`oldColumns` and `oldEnum` are the values captured by the destructurings
before deletion; on a replay of an already-applied model rename they are
`undefined` (`none`) and are re-installed as such. The enum branch
installs only when the captured enum exists (`if (_enum)`). -/
def renameCore (s : Store) (key : FM) (newName : String) (item : Item)
    (oldText : Option String) (oldColumns : Option (List Column))
    (oldEnum : Option Enum) (withRel : Bool) : Store :=
  match item with
  | .enum =>
    match oldEnum with
    | some e =>
      let s := { s with enums := jsSet s.enums ⟨key.file, newName⟩ e }
      setModelText s key.file newName (some (joinWith "\n" e.values))
    | none => s
  | .model =>
    let s := setModelText s key.file newName oldText
    let s := { s with modelColumns := jsSet s.modelColumns ⟨key.file, newName⟩ oldColumns }
    let s := if withRel then rewriteRelations s key newName else s
    remap s key ⟨key.file, newName⟩

/-- One iteration of `applyPatches`' action loop (parser.ts 2378-2432).
When the action's file is not a key of `models` the source would fail on
destructuring `undefined`; suggestions only ever name loaded files, and
the unreachable case is embedded as a no-op. -/
def applyAction (s : Store) (key : FM) (actionData : ActionData) : Store :=
  match jsGet s.models key.file with
  | none => s
  | some value =>
    let object := jsDelete value key.name
    let oldText : Option String := (jsGet value key.name).join
    let oldColumns : Option (List Column) := (jsGet s.modelColumns key).join
    let rest := jsDelete s.modelColumns key
    let s1 : Store :=
      if actionData.isRemap then s
      else { s with models := jsSet s.models key.file object, modelColumns := rest }
    let oldEnum : Option Enum :=
      if actionData.itemOf = Item.enum then jsGet s1.enums key else none
    let s2 : Store :=
      if actionData.itemOf = Item.enum then { s1 with enums := jsDelete s1.enums key } else s1
    match actionData with
    | .skip _ => s2
    | .remapAct src dst _ => { s2 with remapper := jsSet s2.remapper src dst }
    | .rename newName item => renameCore s2 key newName item oldText oldColumns oldEnum false
    | .renameRel newName item => renameCore s2 key newName item oldText oldColumns oldEnum true

/-- parser.ts `applyPatches`: fold the accumulated solutions queue over the
store, in queue order; the queue itself is not cleared. The
enhanced-introspection second pass (driven by user-supplied callbacks and
gated behind the `enhancedIntrospection` feature) is outside this
embedding: this is `applyPatches` with that feature disabled, which
returns after the solutions loop. -/
def applyPatches (s : Store) : Store :=
  s.solutions.foldl (fun st sol => applyAction st sol.1 sol.2) s

/-! ## Conflict Detector (parser.ts `getConflicts`) -/

/-- All `file:name` keys present in `models` (keys with `undefined` values
included, as with `Object.keys`). -/
def allFileModels (s : Store) : List FM :=
  s.models.flatMap (fun file => file.2.map (fun p => FM.mk file.1 p.1))

/-- One frequency-map update (`!frequencyMap[n]` is only ever true when
the key is absent, stored counts being positive). -/
def jsBump (m : List (String × Nat)) (n : String) : List (String × Nat) :=
  match jsGet m n with
  | none => jsSet m n 1
  | some k => jsSet m n (k + 1)

/-- The condition under which `getConflicts` counts a FileModel in the
frequency map: not extended, and — only when cross-file relations are
enabled — not shadowed by the mapper. -/
def freqCond (s : Store) (fm : FM) : Bool :=
  decide (fm ∉ getExtendedModels s) &&
    (if s.config.crossFileRelations then decide (fm ∉ getShadowedModels s) else true)

/-- The frequency map built by `getConflicts`' first loop. -/
def freqMapOf (s : Store) : List (String × Nat) :=
  ((allFileModels s).filter (freqCond s)).foldl (fun m fm => jsBump m fm.name) []

/-- `flattened`: all FileModel keys minus shadowed and extended ones. -/
def flattenedOf (s : Store) : List FM :=
  (allFileModels s).filter (fun fm =>
    decide (fm ∉ getShadowedModels s) && decide (fm ∉ getExtendedModels s))

/-- `duplicated`: `":" ++ name` for every name counted more than once. -/
def duplicatedOf (s : Store) : List String :=
  ((freqMapOf s).filter (fun item => 1 < item.2)).map (fun item => ":" ++ item.1)

/-- `doubledModels`: the flattened keys that end (case-insensitively) with
a duplicated `:name` suffix. -/
def doubledModelsOf (s : Store) : List FM :=
  (flattenedOf s).filter (fun fm => (endsWithAny fm.render (duplicatedOf s)).isSome)

/-- `matching`: the doubled keys grouped by bare model name, in insertion
order (an empty array being truthy, the accumulator reuse is exact). -/
def matchingOf (s : Store) : List (String × List FM) :=
  (doubledModelsOf s).foldl
    (fun m fm => jsSet m fm.name ((jsGet m fm.name).getD [] ++ [fm])) []

/-- A conflict pair as produced by `getConflicts` (fields `1` and `2` with
`name` and `type` in the source). -/
structure CPair where
  a : FM
  aItem : Item
  b : FM
  bItem : Item
deriving DecidableEq, Repr

/-- The `i -> j, i < j` enumeration of unordered pairs used by
`getConflicts`' nested loop, in loop order. -/
def allPairs {α : Type} : List α → List (α × α)
  | [] => []
  | x :: xs => xs.map (fun y => (x, y)) ++ allPairs xs

/-- Conflict tagging: enum membership takes precedence
(`this.enums[key] ? "enum" : "model"`). -/
def tagOf (s : Store) (fm : FM) : Item :=
  if (jsGet s.enums fm).isSome then Item.enum else Item.model

/-- The conflict-pair list computed by `getConflicts` after its
`applyPatches` call, on a given store state. -/
def conflictsOf (s : Store) : List CPair :=
  (matchingOf s).flatMap (fun assoc =>
    (allPairs assoc.2).map (fun p => ⟨p.1, tagOf s p.1, p.2, tagOf s p.2⟩))

/-- parser.ts `getConflicts`: apply the accumulated patches, then compute
the conflict pairs of the resulting state. -/
def getConflicts (s : Store) : List CPair :=
  conflictsOf (applyPatches s)

/-! ## Schema Emitter (parser.ts `generateSchema`) -/

/-- Modelled from the spec: the source calls the external
`pluralize(word, 2, false)` library function, whose code is not part of
this repository; on the regular nouns the tool handles it appends "s". -/
def pluralize2 (word : String) : String := word ++ "s"

/-- parser.ts `createColumnsForShadowedModel`. -/
def createColumnsForShadowedModel (s : Store) (fileModel : FM) : List Column :=
  let shadowedColumns := (s.remapper.filter (fun remapped => decide (remapped.2 = fileModel))).map Prod.fst
  let ref := (getReferredRelations s fileModel).filter
    (fun data => decide (ColKey.mk data.1.file data.1.name data.2.name ∈ shadowedColumns))
  ref.map (fun data => ⟨pluralize2 (strToLower data.1.name), data.1.name ++ "[]", []⟩)

/-- parser.ts `createColumnsForExtendedModel`: the parent's columns minus
those carrying a literal `"@id"` or `"@relation"` constraint token
(`Array.prototype.includes`, exact element equality — a parenthesized
`@relation(...)` token does not match). The unreachable missing-parent
cases (the source would throw) are embedded as `[]`. -/
def createColumnsForExtendedModel (s : Store) (fileModel : FM) : List Column :=
  match jsGet s.config.extended fileModel with
  | none => []
  | some parent =>
    match (jsGet s.modelColumns parent).join with
    | none => []
    | some columns =>
      columns.filter (fun column =>
        !(decide (("@id" : String) ∈ column.constraints)) &&
          !(decide (("@relation" : String) ∈ column.constraints)))

/-- The `fileNameModels` filter of `generateSchema`: surviving model
entries (shadowed and extended-parent keys dropped). -/
def emittedModelEntries (s : Store) : List (FM × Option (List Column)) :=
  s.modelColumns.filter (fun entry =>
    decide (entry.1 ∉ getShadowedModels s) && decide (entry.1 ∉ getExtendedModels s))

/-- The `file:name` keys `generateSchema` emits a model block for. -/
def emittedModels (s : Store) : List FM :=
  (emittedModelEntries s).map Prod.fst

/-- The `columnsToUse` list of `generateSchema` for one model entry: its
own columns, then inverse-relation columns when it replaces a shadowed
model, then the columns copied down from an extended parent. -/
def columnsToUse (s : Store) (fileModel : FM) (columns : List Column) : List Column :=
  columns
    ++ (if decide (fileModel ∈ getReplacementModels s) then createColumnsForShadowedModel s fileModel else [])
    ++ (if decide (fileModel ∈ getModelsExtended s) then createColumnsForExtendedModel s fileModel else [])

/-- One emitted model block (header comment, `model name {`, column lines,
closing brace). -/
def modelBlock (s : Store) (fileModel : FM) (columns : List Column) : String :=
  let modelHeader := "/// " ++ fileModel.file ++ "\nmodel " ++ fileModel.name ++ " \x7b\n"
  let modelBody := (columnsToUse s fileModel columns).foldl
    (fun acc column =>
      acc ++ "  " ++ column.name ++ " " ++ column.type ++ " "
        ++ joinWith " " column.constraints ++ "\n") ""
  "\n\n" ++ modelHeader ++ modelBody ++ "\x7d"

/-- One emitted enum block. -/
def enumBlock (fileEnum : FM) (e : Enum) : String :=
  "\n\n" ++ "/// " ++ fileEnum.file ++ "\nenum " ++ fileEnum.name ++ " \x7b\n"
    ++ (e.values.foldl (fun acc v => acc ++ "  " ++ v ++ "\n") "") ++ "\x7d"

/-- parser.ts `generateSchema`: generator and datasource, the surviving
model blocks (entries whose column list is `undefined` are skipped), the
enum blocks, and the extra generator blocks marked `run`. -/
def generateSchema (s : Store) : String :=
  let schema := s.generator ++ "\n\n" ++ s.datasource
  let schema := (emittedModelEntries s).foldl
    (fun acc entry =>
      match entry.2 with
      | none => acc
      | some columns => acc ++ modelBlock s entry.1 columns) schema
  let schema := s.enums.foldl (fun acc e => acc ++ enumBlock e.1 e.2) schema
  (s.generators.filter (fun g => g.2.run)).foldl (fun acc g => acc ++ "\n\n" ++ g.2.code) schema

/-! ## Resolution loop decision step (index.ts `fixConflicts`)

One iteration of the interactive loop, up to the point where it either
finishes, exits fatally, or presents a prompt; the prompt itself is an
external collaborator, so the step is embedded by its decision outcome and
the remap suggestions it queues. -/

/-- One side of a presented conflict (`name` and `type` of `conflicts[0][i]`). -/
structure Side where
  name : FM
  sideType : Item
deriving DecidableEq, Repr

/-- The decision outcome of one `fixConflicts` iteration. `fatalCrossFile`
embeds the `error(...)` report followed by `process.exit(1)`. -/
inductive Resolution where
  | allResolved
  | fatalCrossFile
  | promptOne (mapper other : Side)
  | promptBoth (first second : Side)
deriving DecidableEq, Repr

/-- A prompt choice (the `choices` array entries, stripped of styling). -/
inductive Choice where
  | skipChoice (side : Side)
  | renameChoice (side : Side)
deriving DecidableEq, Repr

/-- The choice list each outcome presents: two choices (skip the other
side, rename the other side) after an auto-map, four (skip/rename either
side) otherwise. -/
def choicesFor : Resolution → List Choice
  | .promptOne _ other => [.skipChoice other, .renameChoice other]
  | .promptBoth s1 s2 => [.skipChoice s1, .skipChoice s2, .renameChoice s1, .renameChoice s2]
  | _ => []

/-- The `referred1.forEach` mapper scan: each reference whose
`FileModel.column` key has a remapper target queues a remap suggestion
keyed to side 1 and overwrites both `canMap` flags with the comparison of
that target against each side. Returns `(canMap1, canMap2, queued)`. -/
def mapperFold (s : Store) (side1 side2 : Side) (referred1 : List (FM × Column)) :
    Bool × Bool × List (FM × ActionData) :=
  referred1.foldl
    (fun acc ref =>
      match canFixCrossFileWithMapper s ⟨ref.1.file, ref.1.name, ref.2.name⟩ with
      | some res =>
        (decide (side1.name = res), decide (side2.name = res),
          acc.2.2 ++ [(side1.name, ActionData.remapAct ⟨ref.1.file, ref.1.name, ref.2.name⟩ res side1.sideType)])
      | none => acc)
    (false, false, [])

/-- The references of side 1's referral list that have a configured
remapper target, paired with that target, in scan order. -/
def mapperHits (s : Store) (referred1 : List (FM × Column)) : List ((FM × Column) × FM) :=
  referred1.filterMap (fun ref =>
    (canFixCrossFileWithMapper s ⟨ref.1.file, ref.1.name, ref.2.name⟩).map (fun res => (ref, res)))

/-- index.ts `fixConflicts`, one iteration: recompute conflicts (which
replays the solution queue); stop on zero conflicts; pop the first pair;
exit fatally when either side has inbound relation references while
cross-file relations are disabled; otherwise scan side 1's references
against the remapper, and present one side (the unmapped one) when the
scan's final target equals one of the two sides, both sides otherwise. -/
def fixConflictsStep (s : Store) : Resolution × List (FM × ActionData) :=
  let s' := applyPatches s
  match conflictsOf s' with
  | [] => (.allResolved, [])
  | c :: _ =>
    let side1 : Side := ⟨c.a, c.aItem⟩
    let side2 : Side := ⟨c.b, c.bItem⟩
    let referred1 := getReferredRelations s' c.a
    let referred2 := getReferredRelations s' c.b
    if (decide (0 < referred1.length) || decide (0 < referred2.length))
        && !s'.config.crossFileRelations then
      (.fatalCrossFile, [])
    else
      let scan := mapperFold s' side1 side2 referred1
      if scan.1 || scan.2.1 then
        let mapper := if scan.1 then side1 else side2
        let other := if scan.1 then side2 else side1
        (.promptOne mapper other, scan.2.2)
      else
        (.promptBoth side1 side2, scan.2.2)

/-! ## Patch Toolchain (GenerationToolchain.process)

Blocks whose `from` is a `RegExp` and whose `to` is a callback
(the `REPLACE_UNSAFE` callback form and `REPLACE_FULL` whole-file
callbacks) execute arbitrary caller code and are outside this embedding:
the embedded blocks are those with string `from`/`to`, which is where the
per-block idempotency checks live. -/

/-- The edit strategies (part_002 `EditStrategy`). -/
inductive EditStrategy where
  | regexStrat
  | join
  | replace
  | replaceUnsafe
  | replaceFull
  | noneStrat
deriving DecidableEq, Repr

/-- A transaction block with string search/payload (part_002
`EditTransactionBlock`, fields `from` and `to` embedded as `fromStr` and
`toStr`; the unused `search` field is omitted). -/
structure TBlock where
  strategy : EditStrategy
  fromStr : String
  toStr : String
  ammend : Int
  ignoreExtensions : Bool
deriving DecidableEq, Repr

/-- part_002 `validString`: neither empty (falsy) nor the `"<NULL>"`
sentinel. -/
def validString (checked : String) : Bool :=
  !(checked = "" || checked = "<NULL>")

/-- First index at or after `start` where `pat` occurs in `s`
(character indices). -/
def firstIdxFrom (s pat : String) (start : Nat) : Option Nat :=
  (List.range' start (s.data.length + 1 - start)).find?
    (fun i => pat.data.isPrefixOf (s.data.drop i))

/-- A `test` call on a `g`-flagged regex for an escaped literal: searches
from `lastIndex`, returning the match flag and the updated `lastIndex`
(end of the match on success, `0` on failure; a `lastIndex` beyond the
string fails). -/
def gTest (pat s : String) (lastIndex : Nat) : Bool × Nat :=
  if lastIndex > s.data.length then (false, 0)
  else
    match firstIdxFrom s pat lastIndex with
    | some j => (true, j + pat.data.length)
    | none => (false, 0)

/-- The stateful `lines.filter(line => regex.test(line))` of the `REGEX`
strategy: the shared regex's `lastIndex` persists across tested lines. -/
def statefulFilter (pat : String) : List String → Nat → List String
  | [], _ => []
  | l :: ls, lastIndex =>
    let r := gTest pat l lastIndex
    if r.1 then l :: statefulFilter pat ls r.2 else statefulFilter pat ls r.2

/-- JavaScript `Array.prototype.slice(start)` index normalization. -/
def jsSliceIdx (len : Nat) (i : Int) : Nat :=
  if i < 0 then (Int.toNat (Int.ofNat len + i)) else min i.toNat len

/-- JavaScript `arr.slice(0, i)`. -/
def jsSliceTo {α : Type} (l : List α) (i : Int) : List α :=
  l.take (jsSliceIdx l.length i)

/-- JavaScript `arr.slice(i)`. -/
def jsSliceFrom {α : Type} (l : List α) (i : Int) : List α :=
  l.drop (jsSliceIdx l.length i)

/-- Replace every leftmost non-overlapping occurrence of `pat` by `rep`
(JavaScript `replace` with a `g`-flagged escaped literal; the pattern is
non-empty at every call site, `validString` having been checked). The
`fuel` argument only bounds the recursion; it starts at the list's length
and never runs out because each step consumes at least one character. -/
def replaceAllAux (pat rep : List Char) : Nat → List Char → List Char
  | _, [] => []
  | 0, l => l
  | fuel + 1, c :: cs =>
    if pat.isPrefixOf (c :: cs) && !pat.isEmpty then
      rep ++ replaceAllAux pat rep fuel ((c :: cs).drop pat.length)
    else
      c :: replaceAllAux pat rep fuel cs

/-- String version of `replaceAllAux`. -/
def replaceAllStr (s pat rep : String) : String :=
  ⟨replaceAllAux pat.data rep.data s.data.length s.data⟩

/-- Split on every leftmost non-overlapping occurrence of `pat`
(JavaScript `split` on a `g`-flagged escaped literal; `pat` is non-empty
at every call site). Fueled like `replaceAllAux`. -/
def splitOnAux (pat : List Char) : Nat → List Char → List (List Char)
  | _, [] => [[]]
  | 0, l => [l]
  | fuel + 1, c :: cs =>
    if pat.isPrefixOf (c :: cs) && !pat.isEmpty then
      [] :: splitOnAux pat fuel ((c :: cs).drop pat.length)
    else
      match splitOnAux pat fuel cs with
      | [] => [[c]]
      | p :: ps => (c :: p) :: ps

/-- JavaScript `s.split(pattern)` for an escaped literal pattern. -/
def splitOnStr (s pat : String) : List String :=
  (splitOnAux pat.data s.data.length s.data).map (fun l => ⟨l⟩)

/-- One block applied to the in-memory content of its target (part_002
`process`, inner `for (const block of blocks)` body, string blocks).
Non-`REPLACE_FULL` blocks are skipped when `from`/`to` are invalid or the
strategy is `NONE`, when the payload `to` already occurs in the content,
or when the anchor `from` does not occur; `REPLACE_FULL` with a string
`to` leaves the text unchanged; the `switch` has no case for
`REPLACE_UNSAFE`, which therefore also leaves the text unchanged. -/
def processBlock (content : String) (b : TBlock) : String :=
  if b.strategy ≠ EditStrategy.replaceFull
      && (!validString b.fromStr || !validString b.toStr || b.strategy == EditStrategy.noneStrat) then
    content
  else if b.strategy ≠ EditStrategy.replaceFull && containsSubstr content b.toStr then
    content
  else
    let anchor := gTest b.fromStr content 0
    if b.strategy ≠ EditStrategy.replaceFull && !anchor.1 then
      content
    else
      match b.strategy with
      | .regexStrat =>
        let lines := splitOnStr content "\n"
        let filtered := statefulFilter b.fromStr lines anchor.2
        match filtered.head? with
        | none => content
        | some item =>
          let index := lines.indexOf item
          let index2 : Int := Int.ofNat index + b.ammend
          joinWith "\n" (jsSliceTo lines index2) ++ "\n" ++ b.toStr ++ "\n"
            ++ joinWith "\n" (jsSliceFrom lines index2)
      | .join => joinWith (b.toStr ++ b.fromStr) (splitOnStr content b.fromStr)
      | .replace => replaceAllStr content b.fromStr (b.fromStr ++ b.toStr)
      | _ => content

/-- The blocks of a transaction that actually run: with extensions enabled
only the blocks marked `ignoreExtensions` run. -/
def activeBlocks (useExtensions : Bool) (blocks : List TBlock) : List TBlock :=
  if useExtensions then blocks.filter (fun b => b.ignoreExtensions) else blocks

/-- One queued transaction folded into the target's in-memory content. -/
def processTransaction (useExtensions : Bool) (content : String) (blocks : List TBlock) : String :=
  (activeBlocks useExtensions blocks).foldl processBlock content

/-- part_002 `process` restricted to one target file: the queue is drained
with `pop()` (reverse order) into the single in-memory snapshot, which is
written once at the end. -/
def processQueue (useExtensions : Bool) (queue : List (List TBlock)) (content : String) : String :=
  queue.reverse.foldl (processTransaction useExtensions) content

/-! ## Feature Registries (middleware.ts `defineMiddleware`,
part_003 `defineExtension`) -/

/-- A feature: a named generated snippet. -/
structure Feature where
  identifier : String
  code : String
deriving DecidableEq, Repr

/-- A package: a scope wrapper holding features. -/
structure Package where
  identifier : String
  features : List Feature
deriving DecidableEq, Repr

/-- middleware.ts `defineMiddleware`: push the feature onto an existing
package's feature list, or create the package with it. -/
def defineMiddleware (packages : List (String × Package)) (pack name code : String) :
    List (String × Package) :=
  match jsGet packages pack with
  | some p => jsSet packages pack { p with features := p.features ++ [⟨name, code⟩] }
  | none => packages ++ [(pack, ⟨pack, [⟨name, code⟩]⟩)]

/-- part_003 `defineExtension` (same body as `defineMiddleware`, on the
extension toolchain's package map). -/
def defineExtension (packages : List (String × Package)) (pack name code : String) :
    List (String × Package) :=
  match jsGet packages pack with
  | some p => jsSet packages pack { p with features := p.features ++ [⟨name, code⟩] }
  | none => packages ++ [(pack, ⟨pack, [⟨name, code⟩]⟩)]

/-- The features registered under a package name. -/
def featuresUnder (packages : List (String × Package)) (pack : String) : List Feature :=
  match jsGet packages pack with
  | some p => p.features
  | none => []

/-- The final on-disk contents of a package's `generated/` directory after
`generate()` writes every feature file in order (each write to
`identifier + ".js"` overwrites any earlier one). -/
def finalWrites (features : List Feature) : List (String × String) :=
  features.foldl (fun m f => jsSet m (f.identifier ++ ".js") f.code) []

/-! ## Concrete stores and blocks used by counterexamples and witnesses -/

/-- A store with two models in one file and an accumulated model-rename
solution, as the live loop holds it right before a `getConflicts`
recomputation. -/
def exC2 : Store := {
  models := [("main.prisma", [("User", some "model User"), ("Post", some "model Post")])]
  modelColumns := [(⟨"main.prisma", "User"⟩, some [⟨"id", "Int", ["@id"]⟩]),
    (⟨"main.prisma", "Post"⟩, some [⟨"id", "Int", ["@id"]⟩])]
  enums := []
  remapper := []
  solutions := [(⟨"main.prisma", "User"⟩, ActionData.rename "Account" Item.model)]
  config := ⟨true, []⟩
  generator := "generator client"
  datasource := "datasource db"
  generators := [] }

/-- A store where model `f1:A` is relation-referenced by `f2:C.author` and
`f2:C` also holds a plain (non-relation) column typed `A`, with a queued
`rename-rel(A → B)`. -/
def exC3 : Store := {
  models := [("f1", [("A", some "model A")]), ("f2", [("C", some "model C")])]
  modelColumns := [(⟨"f1", "A"⟩, some [⟨"id", "Int", ["@id"]⟩]),
    (⟨"f2", "C"⟩, some [⟨"author", "A", ["@relation(fields:", "[aId],", "references:", "[id])"]⟩,
      ⟨"x", "A", []⟩])]
  enums := []
  remapper := []
  solutions := [(⟨"f1", "A"⟩, ActionData.renameRel "B" Item.model)]
  config := ⟨true, []⟩
  generator := ""
  datasource := ""
  generators := [] }

/-- Two files defining `User`, plus a relation column on `User`, with a
remapper entry resolving that column to a third model that is not a side
of the conflict. -/
def exC5 : Store := {
  models := [("f1", [("User", some "t1")]), ("f2", [("User", some "t2"), ("Post", some "t3")])]
  modelColumns := [(⟨"f1", "User"⟩, some []), (⟨"f2", "User"⟩, some []),
    (⟨"f2", "Post"⟩, some [⟨"author", "User", ["@relation(fields:"]⟩])]
  enums := []
  remapper := [(⟨"f2", "Post", "author"⟩, ⟨"f3", "Other"⟩)]
  solutions := []
  config := ⟨true, []⟩
  generator := ""
  datasource := ""
  generators := [] }

/-- Two files defining `User` and a third file whose `Post.author` relation
column the remapper resolves to `f1:User` (the referring model lives in a
third file so the remapper entry does not shadow a conflicting side). -/
def exC5b : Store := {
  models := [("f1", [("User", some "t1")]), ("f2", [("User", some "t2")]),
    ("f3", [("Post", some "t3")])]
  modelColumns := [(⟨"f1", "User"⟩, some []), (⟨"f2", "User"⟩, some []),
    (⟨"f3", "Post"⟩, some [⟨"author", "User", ["@relation(fields:"]⟩])]
  enums := []
  remapper := [(⟨"f3", "Post", "author"⟩, ⟨"f1", "User"⟩)]
  solutions := []
  config := ⟨true, []⟩
  generator := ""
  datasource := ""
  generators := [] }

/-- `exC5` with cross-file relation support disabled and no remapper. -/
def exC6 : Store := { exC5 with remapper := [], config := ⟨false, []⟩ }

/-- Two `REPLACE` blocks whose second edit destroys the first block's
payload. -/
def exB1 : TBlock := ⟨EditStrategy.replace, "x", "abc", 0, false⟩

/-- See `exB1`. -/
def exB2 : TBlock := ⟨EditStrategy.replace, "b", "Z", 0, false⟩

/-- A single line-anchored insertion block. -/
def exB3 : TBlock := ⟨EditStrategy.regexStrat, "anchor", "PAYLOAD", 0, false⟩

/-- A parent model with an `@id` column, a relation column whose
`@relation(...)` attribute carries arguments, and a plain data column,
extended by a child in another file. -/
def exC8 : Store := {
  models := [("p", [("Parent", some "tp")]), ("c", [("Child", some "tc")])]
  modelColumns := [(⟨"p", "Parent"⟩, some [⟨"id", "Int", ["@id"]⟩,
      ⟨"posts", "Post", ["@relation(fields:", "[pId])"]⟩, ⟨"x", "Int", []⟩]),
    (⟨"c", "Child"⟩, some [⟨"own", "Int", []⟩])]
  enums := []
  remapper := []
  solutions := []
  config := ⟨true, [(⟨"c", "Child"⟩, ⟨"p", "Parent"⟩)]⟩
  generator := ""
  datasource := ""
  generators := [] }

/-- Three files contributing the bare name `User` three times, plus an
unrelated model. -/
def exC1 : Store := {
  models := [("f1", [("User", some "t1"), ("Tag", some "t0")]),
    ("f2", [("User", some "t2")]), ("f3", [("User", some "t3")])]
  modelColumns := [(⟨"f1", "User"⟩, some []), (⟨"f1", "Tag"⟩, some []),
    (⟨"f2", "User"⟩, some []), (⟨"f3", "User"⟩, some [])]
  enums := []
  remapper := []
  solutions := []
  config := ⟨true, []⟩
  generator := ""
  datasource := ""
  generators := [] }

/-- `exC1` after queueing `skip(f3:User)`. -/
def exC4 : Store :=
  { exC1 with solutions := [(⟨"f3", "User"⟩, ActionData.skip Item.model)] }

/-- Whether a queued solution can (re-)create the `file:name` key `X`:
only the rename actions install new keys, at `solution.file : newName`. -/
def createsModelKey (X : FM) (sol : FM × ActionData) : Bool :=
  match sol.2 with
  | ActionData.rename newName _ => decide (sol.1.file = X.file) && decide (newName = X.name)
  | ActionData.renameRel newName _ => decide (sol.1.file = X.file) && decide (newName = X.name)
  | _ => false

/-- The FileModel `X` is absent from the Model Store proper: its name is
not a key of its file's model map, and `file:name` is not a key of
`modelColumns`. -/
def modelAbsent (s : Store) (X : FM) : Prop :=
  (∀ d, jsGet s.models X.file = some d → jsGet d X.name = none) ∧
  jsGet s.modelColumns X = none

/-! ## String lemmas -/

theorem strToLower_append (a b : String) :
    strToLower (a ++ b) = strToLower a ++ strToLower b := by
  unfold strToLower
  apply String.ext
  simp [String.data_append]

theorem strEndsWith_append (a b : String) : strEndsWith (a ++ b) b = true := by
  unfold strEndsWith
  simp [String.data_append]


/-! ## Map lemmas -/

theorem jsGet_jsSet_self {α β : Type} [DecidableEq α]
    (m : List (α × β)) (k : α) (v : β) : jsGet (jsSet m k v) k = some v := by
  induction m with
  | nil => simp [jsGet, jsSet]
  | cons e rest ih =>
    by_cases h : e.1 = k
    · simp [jsSet, h, jsGet]
    · simp [jsSet, h, jsGet, ih]

theorem jsGet_jsSet_ne {α β : Type} [DecidableEq α]
    (m : List (α × β)) (k k' : α) (v : β) (h : k ≠ k') :
    jsGet (jsSet m k v) k' = jsGet m k' := by
  induction m with
  | nil => simp [jsGet, jsSet, h]
  | cons e rest ih =>
    by_cases he : e.1 = k
    · subst he
      simp [jsSet, jsGet, h, Ne.symm h]
    · by_cases he' : e.1 = k'
      · subst he'
        simp [jsSet, jsGet, he]
      · simp [jsSet, jsGet, he, he', ih]

theorem jsGet_jsDelete_self {α β : Type} [DecidableEq α]
    (m : List (α × β)) (k : α) : jsGet (jsDelete m k) k = none := by
  induction m with
  | nil => simp [jsGet, jsDelete]
  | cons e rest ih =>
    by_cases h : e.1 = k
    · simp [jsDelete, h, ih]
    · simp [jsDelete, h, jsGet, ih]

theorem jsGet_jsDelete_ne {α β : Type} [DecidableEq α]
    (m : List (α × β)) (k k' : α) (h : k ≠ k') :
    jsGet (jsDelete m k) k' = jsGet m k' := by
  induction m with
  | nil => simp [jsDelete]
  | cons e rest ih =>
    by_cases he : e.1 = k
    · subst he
      simp [jsDelete, jsGet, Ne.symm h, h, ih]
    · by_cases he' : e.1 = k'
      · subst he'
        simp [jsDelete, jsGet, he]
      · simp [jsDelete, jsGet, he, he', ih]

theorem jsGet_eq_some_mem {α β : Type} [DecidableEq α]
    {m : List (α × β)} {k : α} {v : β} (h : jsGet m k = some v) : (k, v) ∈ m := by
  induction m with
  | nil => simp [jsGet] at h
  | cons e rest ih =>
    by_cases he : e.1 = k
    · simp only [jsGet, if_pos he] at h
      refine List.mem_cons.mpr (Or.inl ?_)
      cases e
      simp_all
    · simp only [jsGet, if_neg he] at h
      exact List.mem_cons_of_mem _ (ih h)

theorem jsKeys_jsSet_of_mem {α β : Type} [DecidableEq α]
    {m : List (α × β)} {k : α} (v : β) (h : k ∈ jsKeys m) :
    jsKeys (jsSet m k v) = jsKeys m := by
  induction m with
  | nil => simp [jsKeys] at h
  | cons e rest ih =>
    by_cases he : e.1 = k
    · subst he
      simp [jsSet, jsKeys]
    · have hk : k ∈ jsKeys rest := by
        rcases List.mem_cons.mp h with h1 | h1
        · exact absurd h1.symm he
        · exact h1
      simp only [jsSet, if_neg he, jsKeys, List.map_cons]
      rw [show List.map Prod.fst (jsSet rest k v) = jsKeys (jsSet rest k v) from rfl,
        ih hk]
      rfl

theorem jsKeys_jsSet_of_not_mem {α β : Type} [DecidableEq α]
    {m : List (α × β)} {k : α} (v : β) (h : k ∉ jsKeys m) :
    jsKeys (jsSet m k v) = jsKeys m ++ [k] := by
  induction m with
  | nil => simp [jsSet, jsKeys]
  | cons e rest ih =>
    simp only [jsKeys, List.map_cons, List.mem_cons] at h
    push_neg at h
    have he : e.1 ≠ k := fun hh => h.1 hh.symm
    simp only [jsSet, if_neg he, jsKeys, List.map_cons]
    rw [show List.map Prod.fst (jsSet rest k v) = jsKeys (jsSet rest k v) from rfl,
      ih h.2]
    rfl

theorem nodupKeys_jsSet {α β : Type} [DecidableEq α]
    (m : List (α × β)) (k : α) (v : β) (h : NodupKeys m) :
    NodupKeys (jsSet m k v) := by
  unfold NodupKeys at h ⊢
  by_cases hk : k ∈ jsKeys m
  · rw [jsKeys_jsSet_of_mem v hk]; exact h
  · rw [jsKeys_jsSet_of_not_mem v hk]
    simp [List.nodup_append, h, hk]

theorem jsGet_of_mem_nodup {α β : Type} [DecidableEq α]
    {m : List (α × β)} {k : α} {v : β}
    (hm : (k, v) ∈ m) (hn : NodupKeys m) : jsGet m k = some v := by
  induction m with
  | nil => simp at hm
  | cons e rest ih =>
    unfold NodupKeys jsKeys at hn
    simp only [List.map_cons, List.nodup_cons] at hn
    rcases List.mem_cons.mp hm with h1 | h1
    · rw [← h1]; simp [jsGet]
    · by_cases he : e.1 = k
      · exfalso
        apply hn.1
        rw [he]
        exact List.mem_map.mpr ⟨(k, v), h1, rfl⟩
      · simp only [jsGet, if_neg he]
        exact ih h1 hn.2

theorem jsGet_none_of_not_mem_keys {α β : Type} [DecidableEq α]
    {m : List (α × β)} {k : α} (h : k ∉ jsKeys m) : jsGet m k = none := by
  induction m with
  | nil => rfl
  | cons e rest ih =>
    simp only [jsKeys, List.map_cons, List.mem_cons] at h
    push_neg at h
    have he : e.1 ≠ k := fun hh => h.1 hh.symm
    simp only [jsGet, if_neg he]
    exact ih h.2

theorem mem_keys_of_jsGet_eq_some {α β : Type} [DecidableEq α]
    {m : List (α × β)} {k : α} {v : β} (h : jsGet m k = some v) : k ∈ jsKeys m := by
  have := jsGet_eq_some_mem h
  exact List.mem_map.mpr ⟨(k, v), this, rfl⟩


/-! ## Generic list and map lemmas used by the claim proofs -/

theorem jsGet_none_not_mem_keys {α β : Type} [DecidableEq α]
    {m : List (α × β)} {k : α} (h : jsGet m k = none) : k ∉ jsKeys m := by
  intro hk
  induction m with
  | nil => simp [jsKeys] at hk
  | cons e rest ih =>
    by_cases he : e.1 = k
    · simp [jsGet, he] at h
    · simp only [jsGet, if_neg he] at h
      rcases List.mem_cons.mp hk with h1 | h1
      · exact he h1.symm
      · exact ih h h1

theorem nodupKeys_jsDelete {α β : Type} [DecidableEq α]
    (m : List (α × β)) (k : α) (h : NodupKeys m) : NodupKeys (jsDelete m k) := by
  induction m with
  | nil => simpa [jsDelete] using h
  | cons e rest ih =>
    unfold NodupKeys jsKeys at h
    simp only [List.map_cons, List.nodup_cons] at h
    by_cases he : e.1 = k
    · simp only [jsDelete, if_pos he]
      exact ih h.2
    · have hrest := ih h.2
      unfold NodupKeys jsKeys at hrest ⊢
      simp only [jsDelete, if_neg he, List.map_cons, List.nodup_cons]
      refine ⟨fun hc => h.1 ?_, hrest⟩
      have hsub : jsKeys (jsDelete rest k) ⊆ jsKeys rest := by
        intro x hx
        clear hc hrest h ih
        induction rest with
        | nil => simpa [jsDelete, jsKeys] using hx
        | cons e' rest' ih' =>
          by_cases he' : e'.1 = k
          · simp only [jsDelete, if_pos he'] at hx
            exact List.mem_cons_of_mem _ (ih' hx)
          · simp only [jsDelete, if_neg he', jsKeys, List.map_cons, List.mem_cons] at hx ⊢
            rcases hx with h1 | h1
            · exact Or.inl h1
            · exact Or.inr (ih' h1)
      exact hsub hc

theorem mem_jsSet_of_ne {α β : Type} [DecidableEq α]
    {m : List (α × β)} {k : α} {v : β} {x : α × β}
    (hx : x ∈ m) (hk : x.1 ≠ k) : x ∈ jsSet m k v := by
  induction m with
  | nil => simp at hx
  | cons e rest ih =>
    by_cases he : e.1 = k
    · simp only [jsSet, if_pos he]
      rcases List.mem_cons.mp hx with h1 | h1
      · exact absurd (h1 ▸ he) hk
      · exact List.mem_cons_of_mem _ h1
    · simp only [jsSet, if_neg he]
      rcases List.mem_cons.mp hx with h1 | h1
      · exact h1 ▸ List.mem_cons_self _ _
      · exact List.mem_cons_of_mem _ (ih h1)

theorem mem_of_mem_jsSet_of_ne {α β : Type} [DecidableEq α]
    {m : List (α × β)} {k : α} {v : β} {x : α × β}
    (hx : x ∈ jsSet m k v) (hk : x.1 ≠ k) : x ∈ m := by
  induction m with
  | nil =>
    simp only [jsSet, List.mem_singleton] at hx
    exact absurd (congrArg Prod.fst hx) hk
  | cons e rest ih =>
    by_cases he : e.1 = k
    · simp only [jsSet, if_pos he] at hx
      rcases List.mem_cons.mp hx with h1 | h1
      · exact absurd (congrArg Prod.fst h1) hk
      · exact List.mem_cons_of_mem _ h1
    · simp only [jsSet, if_neg he] at hx
      rcases List.mem_cons.mp hx with h1 | h1
      · exact h1 ▸ List.mem_cons_self _ _
      · exact List.mem_cons_of_mem _ (ih h1)

theorem find?_split {α : Type} {p : α → Bool} {l : List α} {e : α}
    (h : l.find? p = some e) :
    ∃ pre post, l = pre ++ e :: post ∧ ∀ x ∈ pre, p x = false := by
  induction l with
  | nil => simp at h
  | cons a t ih =>
    by_cases ha : p a
    · rw [List.find?_cons_of_pos _ ha] at h
      injection h with h
      exact ⟨[], t, by simp [h], by simp⟩
    · rw [List.find?_cons_of_neg _ (by simpa using ha)] at h
      obtain ⟨pre, post, h1, h2⟩ := ih h
      refine ⟨a :: pre, post, by rw [h1]; rfl, ?_⟩
      intro x hx
      rcases List.mem_cons.mp hx with h3 | h3
      · rw [h3]; simpa using ha
      · exact h2 x h3

theorem allPairs_mem {α : Type} {l : List α} {x y : α}
    (h : (x, y) ∈ allPairs l) : x ∈ l ∧ y ∈ l := by
  induction l with
  | nil => simp [allPairs] at h
  | cons a t ih =>
    simp only [allPairs, List.mem_append, List.mem_map] at h
    rcases h with ⟨z, hz, he⟩ | h
    · injection he with h1 h2
      exact ⟨h1 ▸ List.mem_cons_self _ _, h2 ▸ List.mem_cons_of_mem _ hz⟩
    · obtain ⟨hx, hy⟩ := ih h
      exact ⟨List.mem_cons_of_mem _ hx, List.mem_cons_of_mem _ hy⟩

theorem allPairs_length_mul_two {α : Type} (l : List α) :
    2 * (allPairs l).length = l.length * (l.length - 1) := by
  induction l with
  | nil => simp [allPairs]
  | cons a t ih =>
    simp only [allPairs, List.length_append, List.length_map, List.length_cons]
    have h2 : 2 * (t.length + (allPairs t).length) =
        2 * t.length + 2 * (allPairs t).length := by ring
    rw [h2, ih]
    cases t.length with
    | zero => simp
    | succ m =>
      simp only [Nat.succ_sub_one]
      ring

theorem allPairs_length {α : Type} (l : List α) :
    (allPairs l).length = l.length * (l.length - 1) / 2 := by
  have := allPairs_length_mul_two l
  omega

theorem foldl_jsBump_count (l : List String) (m : List (String × Nat)) (n : String) :
    (jsGet (l.foldl jsBump m) n).getD 0 = (jsGet m n).getD 0 + l.countP (fun x => x == n) := by
  induction l generalizing m with
  | nil => simp
  | cons a t ih =>
    rw [List.foldl_cons, ih]
    by_cases ha : a = n
    · subst ha
      have hbump : (jsGet (jsBump m a) a).getD 0 = (jsGet m a).getD 0 + 1 := by
        unfold jsBump
        cases hm : jsGet m a with
        | none => simp [hm, jsGet_jsSet_self]
        | some k => simp [hm, jsGet_jsSet_self]
      rw [hbump]
      simp only [List.countP_cons, beq_self_eq_true]
      simp only [if_true]
      omega
    · have hbump : jsGet (jsBump m a) n = jsGet m n := by
        unfold jsBump
        cases hm : jsGet m a with
        | none => exact jsGet_jsSet_ne _ _ _ _ ha
        | some k => exact jsGet_jsSet_ne _ _ _ _ ha
      rw [hbump]
      have : (a == n) = false := by simpa using ha
      simp [List.countP_cons, this]

theorem foldl_jsBump_nodup (l : List String) (m : List (String × Nat)) (h : NodupKeys m) :
    NodupKeys (l.foldl jsBump m) := by
  induction l generalizing m with
  | nil => simpa
  | cons a t ih =>
    rw [List.foldl_cons]
    apply ih
    unfold jsBump
    cases jsGet m a with
    | none => exact nodupKeys_jsSet _ _ _ h
    | some k => exact nodupKeys_jsSet _ _ _ h

theorem mem_jsDelete_of_ne {α β : Type} [DecidableEq α]
    {m : List (α × β)} {k : α} {x : α × β}
    (hx : x ∈ m) (hk : x.1 ≠ k) : x ∈ jsDelete m k := by
  induction m with
  | nil => simp at hx
  | cons e rest ih =>
    by_cases he : e.1 = k
    · simp only [jsDelete, if_pos he]
      rcases List.mem_cons.mp hx with h1 | h1
      · exact absurd (h1 ▸ he) hk
      · exact ih h1
    · simp only [jsDelete, if_neg he]
      rcases List.mem_cons.mp hx with h1 | h1
      · exact h1 ▸ List.mem_cons_self _ _
      · exact List.mem_cons_of_mem _ (ih h1)

theorem jsGet_append_of_none {α β : Type} [DecidableEq α]
    {m : List (α × β)} {k : α} (l : List (α × β)) (h : jsGet m k = none) :
    jsGet (m ++ l) k = jsGet l k := by
  induction m with
  | nil => simp
  | cons e rest ih =>
    by_cases he : e.1 = k
    · simp [jsGet, he] at h
    · simp only [jsGet, if_neg he] at h
      simpa [jsGet, he] using ih h

theorem applyPatches_nil (s : Store) (h : s.solutions = []) : applyPatches s = s := by
  unfold applyPatches
  rw [h]
  rfl

/-- C10 (corrected claim, counterexample): moving the matched remapper
entry to the key `g:B.c` overwrites the unrelated second entry, which held
that key with a different target: after the call the second entry's target
has changed and the map has shrunk, so not every other entry is preserved
exactly. -/
theorem remap_collision_overwrites_conflicting_entry :
    remapRemapper ⟨"f", "A"⟩ ⟨"g", "B"⟩
        [(⟨"f", "A", "c"⟩, ⟨"t", "T"⟩), (⟨"g", "B", "c"⟩, ⟨"u", "U"⟩)] =
      [(⟨"g", "B", "c"⟩, ⟨"t", "T"⟩)] ∧
    (⟨"g", "B", "c"⟩, ⟨"u", "U"⟩) ∉ remapRemapper ⟨"f", "A"⟩ ⟨"g", "B"⟩
        [(⟨"f", "A", "c"⟩, ⟨"t", "T"⟩), (⟨"g", "B", "c"⟩, ⟨"u", "U"⟩)] := by
  decide

/-- C10 (amended): every `remap(old, newMap)` call either finds no
matching entry and leaves the remapper unchanged, or acts on exactly the
first entry whose key's FileModel part equals `old` or whose target equals
`old`: a key match deletes that entry and re-adds its target under
`newMap.column`, preserving every entry not keyed like the matched entry
or like the new key (an entry already holding the new key is overwritten);
a target match rewrites exactly that entry's target in place, preserving
every entry with a different key. Entries after the first match — in
particular further entries that also reference `old` — are not rewritten. -/
theorem remap_rewrites_first_match_only (old newMap : FM) (r : List (ColKey × FM)) :
    (findRemapped old r = none ∧ remapRemapper old newMap r = r) ∨
    ∃ pre e post, r = pre ++ e :: post ∧
      (∀ x ∈ pre, ¬(x.1.fm = old ∨ x.2 = old)) ∧
      ((e.1.fm = old ∧
          remapRemapper old newMap r =
            jsSet (jsDelete r e.1) (ColKey.mk newMap.file newMap.name e.1.column) e.2 ∧
          (∀ x ∈ pre ++ post, x.1 ≠ e.1 →
            x.1 ≠ ColKey.mk newMap.file newMap.name e.1.column →
            x ∈ remapRemapper old newMap r)) ∨
        (¬(e.1.fm = old) ∧ e.2 = old ∧
          remapRemapper old newMap r = jsSet r e.1 newMap ∧
          (∀ x ∈ pre ++ post, x.1 ≠ e.1 → x ∈ remapRemapper old newMap r))) := by
  cases hf : findRemapped old r with
  | none =>
    left
    refine ⟨rfl, ?_⟩
    unfold remapRemapper
    rw [hf]
  | some e =>
    right
    have hsplit := find?_split hf
    obtain ⟨pre, post, hdec, hpre⟩ := hsplit
    have hematch : (e.1.fm = old ∨ e.2 = old) := by
      have := List.find?_some hf
      simpa using this
    refine ⟨pre, e, post, hdec, ?_, ?_⟩
    · intro x hx
      have := hpre x hx
      simpa using this
    · by_cases hk : e.1.fm = old
      · left
        have hres : remapRemapper old newMap r =
            jsSet (jsDelete r e.1) (ColKey.mk newMap.file newMap.name e.1.column) e.2 := by
          unfold remapRemapper
          rw [hf]
          simp [hk]
        refine ⟨hk, hres, ?_⟩
        intro x hx hx1 hx2
        rw [hres]
        have hxr : x ∈ r := by
          rw [hdec]
          rcases List.mem_append.mp hx with h1 | h1
          · exact List.mem_append.mpr (Or.inl h1)
          · exact List.mem_append.mpr (Or.inr (List.mem_cons_of_mem _ h1))
        exact mem_jsSet_of_ne (mem_jsDelete_of_ne hxr hx1) hx2
      · right
        have hv : e.2 = old := hematch.resolve_left hk
        have hres : remapRemapper old newMap r = jsSet r e.1 newMap := by
          unfold remapRemapper
          rw [hf]
          simp [hk]
        refine ⟨hk, hv, hres, ?_⟩
        intro x hx hx1
        rw [hres]
        have hxr : x ∈ r := by
          rw [hdec]
          rcases List.mem_append.mp hx with h1 | h1
          · exact List.mem_append.mpr (Or.inl h1)
          · exact List.mem_append.mpr (Or.inr (List.mem_cons_of_mem _ h1))
        exact mem_jsSet_of_ne hxr hx1

theorem defineMiddleware_featuresUnder (packages : List (String × Package))
    (pack name code : String) :
    featuresUnder (defineMiddleware packages pack name code) pack =
      featuresUnder packages pack ++ [⟨name, code⟩] := by
  cases h : jsGet packages pack with
  | some p =>
    unfold defineMiddleware featuresUnder
    rw [h]
    simp only [jsGet_jsSet_self, h]
  | none =>
    unfold defineMiddleware featuresUnder
    rw [h, jsGet_append_of_none _ h]
    simp [jsGet]

theorem finalWrites_snoc (l : List Feature) (f : Feature) :
    finalWrites (l ++ [f]) = jsSet (finalWrites l) (f.identifier ++ ".js") f.code := by
  unfold finalWrites
  rw [List.foldl_append]
  rfl

/-- C9 (corrected claim, counterexample): two `defineMiddleware` calls with
the same `(package, feature)` key and differing code append two distinct
feature entries under that name — the catalog does not replace the first
entry. -/
theorem register_same_key_duplicates_entries :
    featuresUnder (defineMiddleware (defineMiddleware [] "pkg" "feat" "codeA")
        "pkg" "feat" "codeB") "pkg" =
      [⟨"feat", "codeA"⟩, ⟨"feat", "codeB"⟩] ∧
    (featuresUnder (defineMiddleware (defineMiddleware [] "pkg" "feat" "codeA")
        "pkg" "feat" "codeB") "pkg").countP (fun f => f.identifier == "feat") = 2 := by
  decide

/-- C9 (amended): registration is append-only — re-registering the same
`(package, feature)` key appends a second entry with the same identifier
rather than replacing the first — and the last registered code is what the
generated feature file finally holds, because the per-feature writes
happen in catalog order and each overwrites the previous file content;
`defineExtension` behaves identically to `defineMiddleware`. -/
theorem register_appendOnly_last_write_wins (packages : List (String × Package))
    (pack name c1 c2 : String) :
    featuresUnder (defineMiddleware (defineMiddleware packages pack name c1) pack name c2) pack =
      featuresUnder packages pack ++ [⟨name, c1⟩, ⟨name, c2⟩] ∧
    jsGet (finalWrites (featuresUnder
        (defineMiddleware (defineMiddleware packages pack name c1) pack name c2) pack))
      (name ++ ".js") = some c2 ∧
    defineExtension packages pack name c1 = defineMiddleware packages pack name c1 := by
  have h1 : featuresUnder (defineMiddleware (defineMiddleware packages pack name c1)
      pack name c2) pack = featuresUnder packages pack ++ [⟨name, c1⟩, ⟨name, c2⟩] := by
    rw [defineMiddleware_featuresUnder, defineMiddleware_featuresUnder]
    simp
  refine ⟨h1, ?_, rfl⟩
  rw [h1]
  have h2 : featuresUnder packages pack ++ [(⟨name, c1⟩ : Feature), ⟨name, c2⟩] =
      (featuresUnder packages pack ++ [⟨name, c1⟩]) ++ [⟨name, c2⟩] := by simp
  rw [h2, finalWrites_snoc]
  exact jsGet_jsSet_self _ _ _

/-- C2 (code bug exhibit): replaying an already-applied model rename is
not a no-op. The live loop replays the whole accumulated queue on every
`getConflicts` call; on the second application of `rename(User→Account)`
the captured text and columns are `undefined`, so the renamed model's
entry is overwritten with `undefined` and its block disappears from the
generated schema. -/
theorem applyPatches_rename_replay_corrupts :
    applyPatches (applyPatches exC2) ≠ applyPatches exC2 ∧
    jsGet (applyPatches exC2).modelColumns ⟨"main.prisma", "Account"⟩ =
      some (some [⟨"id", "Int", ["@id"]⟩]) ∧
    jsGet (applyPatches (applyPatches exC2)).modelColumns ⟨"main.prisma", "Account"⟩ =
      some none ∧
    generateSchema (applyPatches (applyPatches exC2)) ≠ generateSchema (applyPatches exC2) := by
  decide

/-- C6 (confirmed): when the popped conflict pair has at least one inbound
relation reference on either side and cross-file relation support is
disabled, the resolution step reports the fatal cross-file outcome (the
source prints an error and calls `process.exit(1)`) without queueing
anything. -/
theorem crossFile_disabled_is_fatal (s : Store) (c : CPair) (rest : List CPair)
    (hs : s.solutions = []) (hc : conflictsOf s = c :: rest)
    (href : getReferredRelations s c.a ≠ [] ∨ getReferredRelations s c.b ≠ [])
    (hflag : s.config.crossFileRelations = false) :
    fixConflictsStep s = (Resolution.fatalCrossFile, []) := by
  have hap : applyPatches s = s := applyPatches_nil s hs
  have h1 : (decide (0 < (getReferredRelations s c.a).length) ||
      decide (0 < (getReferredRelations s c.b).length)) = true := by
    rcases href with h | h
    · have := List.length_pos.mpr h
      simp [this]
    · have := List.length_pos.mpr h
      simp [this]
  unfold fixConflictsStep
  simp only [hap, hc, hflag, h1]
  simp

/-- Witness for `crossFile_disabled_is_fatal` at the concrete store
`exC6`. -/
theorem crossFile_disabled_is_fatal_witness :
    fixConflictsStep exC6 = (Resolution.fatalCrossFile, []) :=
  crossFile_disabled_is_fatal exC6
    ⟨⟨"f1", "User"⟩, Item.model, ⟨"f2", "User"⟩, Item.model⟩ []
    (by decide) (by decide) (by decide) (by decide)

theorem mem_of_getLast?_eq_some {α : Type} {l : List α} {a : α}
    (h : l.getLast? = some a) : a ∈ l := by
  induction l with
  | nil => simp at h
  | cons x t ih =>
    cases t with
    | nil =>
      simp only [List.getLast?_singleton] at h
      injection h with h
      exact h ▸ List.mem_cons_self _ _
    | cons y u =>
      rw [List.getLast?_cons_cons] at h
      exact List.mem_cons_of_mem _ (ih h)

theorem firstIdxFrom_zero_isSome (s pat : String) :
    (firstIdxFrom s pat 0).isSome = containsSubstr s pat := by
  unfold firstIdxFrom containsSubstr
  by_cases h : pat.data <:+: s.data
  · obtain ⟨t, hpre, hsuf⟩ := (List.infix_iff_prefix_suffix).mp h
    obtain ⟨preL, hpreL⟩ := hsuf
    have hidx : pat.data.isPrefixOf (s.data.drop preL.length) = true := by
      rw [← hpreL, List.drop_left]
      exact (List.isPrefixOf_iff_prefix).mpr hpre
    have hlen : preL.length ≤ s.data.length := by
      rw [← hpreL]
      simp
    have hmem : preL.length ∈ List.range' 0 (s.data.length + 1 - 0) := by
      rw [List.mem_range'_1]
      omega
    have hsome : (List.range' 0 (s.data.length + 1 - 0)).find?
        (fun i => pat.data.isPrefixOf (s.data.drop i)) ≠ none := by
      intro hnone
      have := List.find?_eq_none.mp hnone _ hmem
      rw [hidx] at this
      exact this rfl
    rw [decide_eq_true h]
    cases hf : (List.range' 0 (s.data.length + 1 - 0)).find?
        (fun i => pat.data.isPrefixOf (s.data.drop i)) with
    | none => exact absurd hf hsome
    | some i => rfl
  · rw [decide_eq_false h]
    cases hf : (List.range' 0 (s.data.length + 1 - 0)).find?
        (fun i => pat.data.isPrefixOf (s.data.drop i)) with
    | none => rfl
    | some i =>
      exfalso
      apply h
      have hp := List.find?_some hf
      have hpre : pat.data <+: s.data.drop i := (List.isPrefixOf_iff_prefix).mp hp
      exact (List.infix_iff_prefix_suffix).mpr ⟨s.data.drop i, hpre, List.drop_suffix i s.data⟩

theorem gTest_zero_fst (pat s : String) : (gTest pat s 0).1 = containsSubstr s pat := by
  unfold gTest
  rw [if_neg (by omega)]
  rw [← firstIdxFrom_zero_isSome]
  cases firstIdxFrom s pat 0 with
  | none => rfl
  | some j => rfl

theorem processBlock_payload_skip (content : String) (b : TBlock)
    (hstrat : b.strategy ≠ EditStrategy.replaceFull)
    (hc : containsSubstr content b.toStr = true) : processBlock content b = content := by
  unfold processBlock
  by_cases h1 : (decide (b.strategy ≠ EditStrategy.replaceFull)
      && (!validString b.fromStr || !validString b.toStr
        || b.strategy == EditStrategy.noneStrat)) = true
  · rw [if_pos h1]
  · rw [if_neg h1, if_pos (by simp [hstrat, hc])]

theorem processBlock_anchor_skip (content : String) (b : TBlock)
    (hstrat : b.strategy ≠ EditStrategy.replaceFull)
    (hf : containsSubstr content b.fromStr = false) : processBlock content b = content := by
  unfold processBlock
  by_cases h1 : (decide (b.strategy ≠ EditStrategy.replaceFull)
      && (!validString b.fromStr || !validString b.toStr
        || b.strategy == EditStrategy.noneStrat)) = true
  · rw [if_pos h1]
  · rw [if_neg h1]
    by_cases h2 : (decide (b.strategy ≠ EditStrategy.replaceFull)
        && containsSubstr content b.toStr) = true
    · rw [if_pos h2]
    · rw [if_neg h2, if_pos (by simp [hstrat, gTest_zero_fst, hf])]

theorem processBlock_invalid_skip (content : String) (b : TBlock)
    (hstrat : b.strategy ≠ EditStrategy.replaceFull)
    (hv : (!validString b.fromStr || !validString b.toStr
      || b.strategy == EditStrategy.noneStrat) = true) : processBlock content b = content := by
  unfold processBlock
  rw [if_pos (by simp [hstrat, hv])]

theorem processBlock_replaceFull_id (content : String) (b : TBlock)
    (hstrat : b.strategy = EditStrategy.replaceFull) : processBlock content b = content := by
  unfold processBlock
  rw [if_neg (by simp [hstrat]), if_neg (by simp [hstrat]), if_neg (by simp [hstrat])]
  rw [hstrat]

theorem processBlock_skips_under (content : String) (b : TBlock)
    (h : validString b.fromStr = true → validString b.toStr = true →
      containsSubstr content b.toStr = true) : processBlock content b = content := by
  by_cases hrf : b.strategy = EditStrategy.replaceFull
  · exact processBlock_replaceFull_id content b hrf
  · by_cases hvf : validString b.fromStr
    · by_cases hvt : validString b.toStr
      · exact processBlock_payload_skip content b hrf (h hvf hvt)
      · exact processBlock_invalid_skip content b hrf (by simp [hvt])
    · exact processBlock_invalid_skip content b hrf (by simp [hvf])

theorem foldl_id_of_pointwise {α β : Type} (f : β → α → β) (p : β) (l : List α)
    (h : ∀ a ∈ l, f p a = p) : l.foldl f p = p := by
  induction l with
  | nil => rfl
  | cons b t ih =>
    rw [List.foldl_cons, h b (List.mem_cons_self _ _)]
    exact ih (fun x hx => h x (List.mem_cons_of_mem _ hx))

/-- C7 (corrected claim, counterexample): two `REPLACE` blocks in one
transaction, where the second block's edit destroys the first block's
payload; the second run re-fires the first block, so the file content
after the second run differs from the content after the first. -/
theorem toolchain_second_run_differs :
    processQueue false [[exB1, exB2]] "xb" = "xabZcbZ" ∧
    processQueue false [[exB1, exB2]] (processQueue false [[exB1, exB2]] "xb") =
      "xabcabZcbZ" ∧
    processQueue false [[exB1, exB2]] (processQueue false [[exB1, exB2]] "xb") ≠
      processQueue false [[exB1, exB2]] "xb" := by
  decide

/-- C7 (amended): every non-`REPLACE_FULL` block is skipped without error
when its payload already occurs in the target's current in-memory content
or when its anchor does not occur in it; consequently a second application
of the same transaction set leaves the content of the first application
unchanged provided each active block with valid search/payload strings
still finds its payload in that content (which the first run guarantees
for any single-block set, but which interfering later blocks can break). -/
theorem toolchain_skips_and_conditional_idempotency :
    (∀ (content : String) (b : TBlock), b.strategy ≠ EditStrategy.replaceFull →
      containsSubstr content b.toStr = true ∨ containsSubstr content b.fromStr = false →
      processBlock content b = content) ∧
    (∀ (useExtensions : Bool) (queue : List (List TBlock)) (content : String),
      (∀ t ∈ queue, ∀ b ∈ activeBlocks useExtensions t,
        validString b.fromStr = true → validString b.toStr = true →
        containsSubstr (processQueue useExtensions queue content) b.toStr = true) →
      processQueue useExtensions queue (processQueue useExtensions queue content) =
        processQueue useExtensions queue content) := by
  constructor
  · intro content b hstrat hor
    rcases hor with h | h
    · exact processBlock_payload_skip content b hstrat h
    · exact processBlock_anchor_skip content b hstrat h
  · intro useExtensions queue content hp
    have hall : ∀ t ∈ queue.reverse,
        processTransaction useExtensions (processQueue useExtensions queue content) t =
          processQueue useExtensions queue content := by
      intro t ht
      unfold processTransaction
      apply foldl_id_of_pointwise
      intro b hb
      exact processBlock_skips_under _ b (hp t (List.mem_reverse.mp ht) b hb)
    show queue.reverse.foldl (processTransaction useExtensions)
        (processQueue useExtensions queue content) =
      processQueue useExtensions queue content
    exact foldl_id_of_pointwise _ _ _ hall

/-- Witness for `toolchain_skips_and_conditional_idempotency`: a `JOIN`
block whose payload is already present is skipped, and a single
line-anchored transaction applied twice leaves the once-patched content
unchanged. -/
theorem toolchain_skips_witness :
    processBlock "l1\nanchor line\nl3" ⟨EditStrategy.join, "anchor", "line", 0, false⟩ =
      "l1\nanchor line\nl3" ∧
    processQueue false [[exB3]] (processQueue false [[exB3]] "l1\nanchor line\nl3") =
      processQueue false [[exB3]] "l1\nanchor line\nl3" :=
  ⟨toolchain_skips_and_conditional_idempotency.1 _ _ (by decide) (Or.inl (by decide)),
    toolchain_skips_and_conditional_idempotency.2 false [[exB3]] _ (by decide)⟩

/-- C8 (corrected claim, counterexample): the parent's `posts` column is a
relation column — its constraint token starts with `@relation(` — yet it is
copied into the child's emitted body, because the filter tests exact
membership of the token `"@relation"`, which a parenthesized
`@relation(...)` token fails. -/
theorem extended_model_copies_argument_relation_column :
    columnsToUse exC8 ⟨"c", "Child"⟩ [⟨"own", "Int", []⟩] =
      [⟨"own", "Int", []⟩, ⟨"posts", "Post", ["@relation(fields:", "[pId])"]⟩,
        ⟨"x", "Int", []⟩] ∧
    (columnsToUse exC8 ⟨"c", "Child"⟩ [⟨"own", "Int", []⟩]).countP
      (fun c => c.constraints.any (fun k => strStartsWith k "@relation")) = 1 ∧
    ([(⟨"own", "Int", []⟩ : Column)].countP
      (fun c => c.constraints.any (fun k => strStartsWith k "@relation"))) = 0 := by
  decide

/-- C8 (amended): for a child with a configured extended parent, the
emitted body of the child is its own columns followed by exactly those
parent columns that carry neither a literal `"@id"` nor a literal
`"@relation"` constraint token (relation columns whose `@relation(...)`
attribute has arguments are therefore copied too); the copied columns form
a duplicate-free sublist of the parent's declared column list (each at
most once, in parent order), and the parent itself is not emitted as a
standalone model while the child is. -/
theorem extended_model_emission (s : Store) (child parent : FM) (own pcols : List Column)
    (hext : jsGet s.config.extended child = some parent)
    (hpar : jsGet s.modelColumns parent = some (some pcols))
    (hch : jsGet s.modelColumns child = some (some own))
    (hrepl : child ∉ getReplacementModels s)
    (hshadow : child ∉ getShadowedModels s)
    (hchildNotParent : child ∉ getExtendedModels s)
    (hnodup : pcols.Nodup) :
    columnsToUse s child own =
      own ++ pcols.filter (fun column =>
        !(decide (("@id" : String) ∈ column.constraints)) &&
          !(decide (("@relation" : String) ∈ column.constraints))) ∧
    parent ∉ emittedModels s ∧
    child ∈ emittedModels s ∧
    ((columnsToUse s child own).drop own.length).Sublist pcols ∧
    ((columnsToUse s child own).drop own.length).Nodup := by
  have hchildExt : child ∈ getModelsExtended s := by
    have := mem_keys_of_jsGet_eq_some hext
    exact this
  have hparentExt : parent ∈ getExtendedModels s := by
    have hmem := jsGet_eq_some_mem hext
    exact List.mem_map.mpr ⟨(child, parent), hmem, rfl⟩
  have h1 : columnsToUse s child own =
      own ++ pcols.filter (fun column =>
        !(decide (("@id" : String) ∈ column.constraints)) &&
          !(decide (("@relation" : String) ∈ column.constraints))) := by
    unfold columnsToUse
    rw [if_neg (by simpa using hrepl), if_pos (by simpa using hchildExt)]
    unfold createColumnsForExtendedModel
    rw [hext]
    simp [hpar, Option.join]
  refine ⟨h1, ?_, ?_, ?_, ?_⟩
  · intro hpe
    unfold emittedModels emittedModelEntries at hpe
    obtain ⟨entry, hentry, hfst⟩ := List.mem_map.mp hpe
    have hpred := List.of_mem_filter hentry
    rw [hfst] at hpred
    simp only [Bool.and_eq_true, decide_eq_true_eq] at hpred
    exact hpred.2 hparentExt
  · unfold emittedModels emittedModelEntries
    refine List.mem_map.mpr ⟨(child, some own), ?_, rfl⟩
    refine List.mem_filter.mpr ⟨jsGet_eq_some_mem hch, ?_⟩
    simp only [Bool.and_eq_true, decide_eq_true_eq]
    exact ⟨hshadow, hchildNotParent⟩
  · rw [h1, List.drop_left]
    exact List.filter_sublist ..
  · rw [h1, List.drop_left]
    exact hnodup.filter _

/-- Witness for `extended_model_emission` at the concrete store `exC8`. -/
theorem extended_model_emission_witness :
    columnsToUse exC8 ⟨"c", "Child"⟩ [⟨"own", "Int", []⟩] =
      [⟨"own", "Int", []⟩] ++
        ([⟨"id", "Int", ["@id"]⟩, ⟨"posts", "Post", ["@relation(fields:", "[pId])"]⟩,
          ⟨"x", "Int", []⟩] : List Column).filter (fun column =>
          !(decide (("@id" : String) ∈ column.constraints)) &&
            !(decide (("@relation" : String) ∈ column.constraints))) ∧
    (⟨"p", "Parent"⟩ : FM) ∉ emittedModels exC8 ∧
    (⟨"c", "Child"⟩ : FM) ∈ emittedModels exC8 :=
  have h := extended_model_emission exC8 ⟨"c", "Child"⟩ ⟨"p", "Parent"⟩
    [⟨"own", "Int", []⟩]
    [⟨"id", "Int", ["@id"]⟩, ⟨"posts", "Post", ["@relation(fields:", "[pId])"]⟩,
      ⟨"x", "Int", []⟩]
    (by decide) (by decide) (by decide) (by decide) (by decide) (by decide) (by decide)
  ⟨h.1, h.2.1, h.2.2.1⟩

theorem mapperFold_go (s : Store) (side1 side2 : Side) (refs : List (FM × Column))
    (acc : Bool × Bool × List (FM × ActionData)) :
    refs.foldl
      (fun acc ref =>
        match canFixCrossFileWithMapper s ⟨ref.1.file, ref.1.name, ref.2.name⟩ with
        | some res =>
          (decide (side1.name = res), decide (side2.name = res),
            acc.2.2 ++ [(side1.name, ActionData.remapAct ⟨ref.1.file, ref.1.name, ref.2.name⟩ res side1.sideType)])
        | none => acc) acc =
    ((mapperHits s refs).getLast?.elim acc.1 (fun h => decide (side1.name = h.2)),
     (mapperHits s refs).getLast?.elim acc.2.1 (fun h => decide (side2.name = h.2)),
     acc.2.2 ++ (mapperHits s refs).map
       (fun h => (side1.name,
         ActionData.remapAct ⟨h.1.1.file, h.1.1.name, h.1.2.name⟩ h.2 side1.sideType))) := by
  induction refs generalizing acc with
  | nil => simp [mapperHits]
  | cons r rest ih =>
    rw [List.foldl_cons]
    cases hr : canFixCrossFileWithMapper s ⟨r.1.file, r.1.name, r.2.name⟩ with
    | none =>
      have hh : mapperHits s (r :: rest) = mapperHits s rest := by
        unfold mapperHits
        simp [List.filterMap_cons, hr]
      rw [hh]
      simpa [hr] using ih acc
    | some res =>
      have hh : mapperHits s (r :: rest) = (r, res) :: mapperHits s rest := by
        unfold mapperHits
        simp [List.filterMap_cons, hr]
      rw [hh]
      simp only [hr]
      rw [ih]
      cases hrest : (mapperHits s rest).getLast? with
      | none =>
        have : mapperHits s rest = [] := by
          cases hmr : mapperHits s rest with
          | nil => rfl
          | cons a l =>
            rw [hmr] at hrest
            simp [List.getLast?_eq_getLast] at hrest
        simp [this]
      | some h =>
        have hne : mapperHits s rest ≠ [] := by
          intro hmr
          rw [hmr] at hrest
          simp at hrest
        have hcons : ((r, res) :: mapperHits s rest).getLast? = some h := by
          cases hmr : mapperHits s rest with
          | nil => exact absurd hmr hne
          | cons a l =>
            rw [List.getLast?_cons_cons]
            rw [hmr] at hrest
            exact hrest
        simp [hcons, hrest]

/-- C5 (corrected claim, counterexample): the popped `f1:User` / `f2:User`
pair has an inbound relation reference (`f2:Post.author`) whose key has a
configured remapper target, and the engine does queue a remap action for
it; but the target (`f3:Other`) is not one of the two conflicting sides,
so the engine presents both sides with all four skip/rename choices
instead of presenting only the other side with two. -/
theorem automap_foreign_target_prompts_both_sides :
    fixConflictsStep exC5 =
      (Resolution.promptBoth ⟨⟨"f1", "User"⟩, Item.model⟩ ⟨⟨"f2", "User"⟩, Item.model⟩,
        [(⟨"f1", "User"⟩,
          ActionData.remapAct ⟨"f2", "Post", "author"⟩ ⟨"f3", "Other"⟩ Item.model)]) ∧
    (choicesFor (fixConflictsStep exC5).1).length = 4 := by
  decide

/-- C5 (amended): when a conflict pair is popped with cross-file relations
enabled, the engine queues one remap action (keyed to side 1, tagged with
side 1's type) for every inbound relation reference in side 1's referral
list whose `FileModel.column` key has a configured remapper target; and
when the last such configured target equals one of the two conflicting
sides, it presents only the other side for disambiguation, offering
exactly the choices skip-other and rename-other. -/
theorem automap_side_target_prompts_other_side (s : Store) (c : CPair) (rest : List CPair)
    (h : (FM × Column) × FM)
    (hs : s.solutions = []) (hc : conflictsOf s = c :: rest)
    (hflag : s.config.crossFileRelations = true)
    (hlast : (mapperHits s (getReferredRelations s c.a)).getLast? = some h)
    (hside : h.2 = c.a ∨ h.2 = c.b) :
    fixConflictsStep s =
      (Resolution.promptOne (if c.a = h.2 then ⟨c.a, c.aItem⟩ else ⟨c.b, c.bItem⟩)
          (if c.a = h.2 then ⟨c.b, c.bItem⟩ else ⟨c.a, c.aItem⟩),
        (mapperHits s (getReferredRelations s c.a)).map
          (fun hh => (c.a,
            ActionData.remapAct ⟨hh.1.1.file, hh.1.1.name, hh.1.2.name⟩ hh.2 c.aItem))) ∧
    (c.a, ActionData.remapAct ⟨h.1.1.file, h.1.1.name, h.1.2.name⟩ h.2 c.aItem) ∈
      (fixConflictsStep s).2 ∧
    choicesFor (fixConflictsStep s).1 =
      [Choice.skipChoice (if c.a = h.2 then ⟨c.b, c.bItem⟩ else ⟨c.a, c.aItem⟩),
       Choice.renameChoice (if c.a = h.2 then ⟨c.b, c.bItem⟩ else ⟨c.a, c.aItem⟩)] := by
  have hap : applyPatches s = s := applyPatches_nil s hs
  have hmain : fixConflictsStep s =
      (Resolution.promptOne (if c.a = h.2 then ⟨c.a, c.aItem⟩ else ⟨c.b, c.bItem⟩)
          (if c.a = h.2 then ⟨c.b, c.bItem⟩ else ⟨c.a, c.aItem⟩),
        (mapperHits s (getReferredRelations s c.a)).map
          (fun hh => (c.a,
            ActionData.remapAct ⟨hh.1.1.file, hh.1.1.name, hh.1.2.name⟩ hh.2 c.aItem))) := by
    unfold fixConflictsStep
    simp only [hap, hc, hflag, Bool.not_true, Bool.and_false]
    rw [if_neg (by simp)]
    unfold mapperFold
    rw [mapperFold_go s ⟨c.a, c.aItem⟩ ⟨c.b, c.bItem⟩ (getReferredRelations s c.a)
      (false, false, [])]
    rw [hlast]
    by_cases hca : c.a = h.2
    · simp [Option.elim, hca]
    · have hcb : c.b = h.2 := by
        rcases hside with h1 | h1
        · exact absurd h1.symm hca
        · exact h1.symm
      simp [Option.elim, hca, hcb]
  refine ⟨hmain, ?_, ?_⟩
  · rw [hmain]
    refine List.mem_map.mpr ⟨h, mem_of_getLast?_eq_some hlast, rfl⟩
  · rw [hmain]
    rfl

/-- Witness for `automap_side_target_prompts_other_side` at `exC5b`, where
the configured target `f1:User` is the first conflict side and the second
side is prompted with exactly a skip and a rename choice. -/
theorem automap_side_target_prompts_other_side_witness :
    fixConflictsStep exC5b =
      (Resolution.promptOne
          (if (⟨"f1", "User"⟩ : FM) = (⟨"f1", "User"⟩ : FM) then
            (⟨⟨"f1", "User"⟩, Item.model⟩ : Side) else ⟨⟨"f2", "User"⟩, Item.model⟩)
          (if (⟨"f1", "User"⟩ : FM) = (⟨"f1", "User"⟩ : FM) then
            (⟨⟨"f2", "User"⟩, Item.model⟩ : Side) else ⟨⟨"f1", "User"⟩, Item.model⟩),
        (mapperHits exC5b (getReferredRelations exC5b ⟨"f1", "User"⟩)).map
          (fun hh => (⟨"f1", "User"⟩,
            ActionData.remapAct ⟨hh.1.1.file, hh.1.1.name, hh.1.2.name⟩ hh.2 Item.model))) :=
  (automap_side_target_prompts_other_side exC5b
    ⟨⟨"f1", "User"⟩, Item.model, ⟨"f2", "User"⟩, Item.model⟩ []
    ((⟨"f3", "Post"⟩, ⟨"author", "User", ["@relation(fields:"]⟩), ⟨"f1", "User"⟩)
    (by decide) (by decide) (by decide) (by decide) (by decide)).1

theorem setModelText_modelColumns (s : Store) (file name : String) (v : Option String) :
    (setModelText s file name v).modelColumns = s.modelColumns := by
  unfold setModelText
  cases jsGet s.models file <;> rfl

theorem setModelText_enums (s : Store) (file name : String) (v : Option String) :
    (setModelText s file name v).enums = s.enums := by
  unfold setModelText
  cases jsGet s.models file <;> rfl

theorem setModelText_solutions (s : Store) (file name : String) (v : Option String) :
    (setModelText s file name v).solutions = s.solutions := by
  unfold setModelText
  cases jsGet s.models file <;> rfl

theorem setModelText_models_absent (s : Store) (file name : String) (v : Option String) (X : FM)
    (h : ∀ d, jsGet s.models X.file = some d → jsGet d X.name = none)
    (hne : ¬(file = X.file ∧ name = X.name)) :
    ∀ d, jsGet (setModelText s file name v).models X.file = some d → jsGet d X.name = none := by
  intro d hd
  unfold setModelText at hd
  cases hv : jsGet s.models file with
  | none => rw [hv] at hd; exact h d hd
  | some fileData =>
    rw [hv] at hd
    simp only at hd
    by_cases hf : file = X.file
    · subst hf
      rw [jsGet_jsSet_self] at hd
      injection hd with hd
      subst hd
      have hname : name ≠ X.name := fun hn => hne ⟨rfl, hn⟩
      rw [jsGet_jsSet_ne _ _ _ _ hname]
      exact h fileData hv
    · rw [jsGet_jsSet_ne _ _ _ _ hf] at hd
      exact h d hd

theorem setModelText_fileKey (s : Store) (file name : String) (v : Option String) (f : String)
    (h : (jsGet s.models f).isSome) : (jsGet (setModelText s file name v).models f).isSome := by
  unfold setModelText
  cases hv : jsGet s.models file with
  | none => exact h
  | some fileData =>
    simp only
    by_cases hf : file = f
    · subst hf
      rw [jsGet_jsSet_self]
      rfl
    · rw [jsGet_jsSet_ne _ _ _ _ hf]
      exact h

theorem rewriteOneRelation_models (newName : String) (st : Store) (rel : FM × Column) :
    (rewriteOneRelation newName st rel).models = st.models := by
  unfold rewriteOneRelation
  cases (jsGet st.modelColumns rel.1).join with
  | none => rfl
  | some cols =>
    dsimp only
    cases cols.find? (fun c => c.name == rel.2.name) <;> rfl

theorem rewriteOneRelation_enums (newName : String) (st : Store) (rel : FM × Column) :
    (rewriteOneRelation newName st rel).enums = st.enums := by
  unfold rewriteOneRelation
  cases (jsGet st.modelColumns rel.1).join with
  | none => rfl
  | some cols =>
    dsimp only
    cases cols.find? (fun c => c.name == rel.2.name) <;> rfl

theorem rewriteOneRelation_solutions (newName : String) (st : Store) (rel : FM × Column) :
    (rewriteOneRelation newName st rel).solutions = st.solutions := by
  unfold rewriteOneRelation
  cases (jsGet st.modelColumns rel.1).join with
  | none => rfl
  | some cols =>
    dsimp only
    cases cols.find? (fun c => c.name == rel.2.name) <;> rfl

theorem rewriteOneRelation_modelColumns_absent (newName : String) (st : Store)
    (rel : FM × Column) (X : FM) (hkey : rel.1 ≠ X)
    (h : jsGet st.modelColumns X = none) :
    jsGet (rewriteOneRelation newName st rel).modelColumns X = none := by
  unfold rewriteOneRelation
  cases (jsGet st.modelColumns rel.1).join with
  | none => exact h
  | some cols =>
    dsimp only
    cases cols.find? (fun c => c.name == rel.2.name) with
    | none => exact h
    | some column =>
      simp only
      rw [jsGet_jsSet_ne _ _ _ _ hkey]
      exact h

theorem getReferredRelations_key_mem (t : Store) (fm : FM) (rel : FM × Column)
    (h : rel ∈ getReferredRelations t fm) : rel.1 ∈ jsKeys t.modelColumns := by
  unfold getReferredRelations at h
  obtain ⟨entry, hentry, hrel⟩ := List.mem_flatMap.mp h
  have hmem : entry ∈ t.modelColumns := List.mem_of_mem_filter hentry
  cases he : entry.2 with
  | none => rw [he] at hrel; simp at hrel
  | some columns =>
    rw [he] at hrel
    obtain ⟨c, hc, hcrel⟩ := List.mem_map.mp hrel
    have : rel.1 = entry.1 := by rw [← hcrel]
    rw [this]
    exact List.mem_map.mpr ⟨entry, hmem, rfl⟩

theorem rewriteRelations_absent (s : Store) (key : FM) (newName : String) (X : FM)
    (hmA : ∀ d, jsGet s.models X.file = some d → jsGet d X.name = none)
    (hmc : jsGet s.modelColumns X = none) :
    (∀ d, jsGet (rewriteRelations s key newName).models X.file = some d →
      jsGet d X.name = none) ∧
    jsGet (rewriteRelations s key newName).modelColumns X = none := by
  unfold rewriteRelations
  have hXkeys : X ∉ jsKeys s.modelColumns := jsGet_none_not_mem_keys hmc
  have hgen : ∀ (rels : List (FM × Column)) (t : Store),
      (∀ r ∈ rels, r.1 ∈ jsKeys s.modelColumns) →
      (∀ d, jsGet t.models X.file = some d → jsGet d X.name = none) →
      jsGet t.modelColumns X = none →
      (∀ d, jsGet (rels.foldl (rewriteOneRelation newName) t).models X.file = some d →
        jsGet d X.name = none) ∧
      jsGet (rels.foldl (rewriteOneRelation newName) t).modelColumns X = none := by
    intro rels
    induction rels with
    | nil => intro t _ h1 h2; exact ⟨h1, h2⟩
    | cons r rest ih =>
      intro t hkeys h1 h2
      rw [List.foldl_cons]
      have hkr : r.1 ≠ X := by
        intro he
        exact hXkeys (he ▸ hkeys r (List.mem_cons_self _ _))
      refine ih _ (fun x hx => hkeys x (List.mem_cons_of_mem _ hx)) ?_ ?_
      · rw [rewriteOneRelation_models]
        exact h1
      · exact rewriteOneRelation_modelColumns_absent _ _ _ _ hkr h2
  exact hgen (getReferredRelations s key) s
    (fun r hr => getReferredRelations_key_mem s key r hr) hmA hmc

theorem rewriteRelations_models (s : Store) (key : FM) (newName : String) :
    (rewriteRelations s key newName).models = s.models := by
  unfold rewriteRelations
  generalize getReferredRelations s key = rels
  induction rels generalizing s with
  | nil => rfl
  | cons r rest ih =>
    rw [List.foldl_cons]
    rw [ih (rewriteOneRelation newName s r), rewriteOneRelation_models]

theorem rewriteRelations_enums (s : Store) (key : FM) (newName : String) :
    (rewriteRelations s key newName).enums = s.enums := by
  unfold rewriteRelations
  generalize getReferredRelations s key = rels
  induction rels generalizing s with
  | nil => rfl
  | cons r rest ih =>
    rw [List.foldl_cons]
    rw [ih (rewriteOneRelation newName s r), rewriteOneRelation_enums]

theorem rewriteRelations_solutions (s : Store) (key : FM) (newName : String) :
    (rewriteRelations s key newName).solutions = s.solutions := by
  unfold rewriteRelations
  generalize getReferredRelations s key = rels
  induction rels generalizing s with
  | nil => rfl
  | cons r rest ih =>
    rw [List.foldl_cons]
    rw [ih (rewriteOneRelation newName s r), rewriteOneRelation_solutions]

theorem rewriteRelations_fileKey (s : Store) (key : FM) (newName : String) (f : String)
    (h : (jsGet s.models f).isSome) :
    (jsGet (rewriteRelations s key newName).models f).isSome := by
  rw [rewriteRelations_models]
  exact h

theorem remap_models (s : Store) (old newMap : FM) : (remap s old newMap).models = s.models :=
  rfl

theorem remap_modelColumns (s : Store) (old newMap : FM) :
    (remap s old newMap).modelColumns = s.modelColumns := rfl

theorem renameCore_absent (s : Store) (key : FM) (newName : String) (item : Item)
    (oldText : Option String) (oldColumns : Option (List Column)) (oldEnum : Option Enum)
    (withRel : Bool) (X : FM)
    (hne : ¬(key.file = X.file ∧ newName = X.name))
    (h : modelAbsent s X) :
    modelAbsent (renameCore s key newName item oldText oldColumns oldEnum withRel) X := by
  obtain ⟨h1, h2⟩ := h
  cases item with
  | enum =>
    cases oldEnum with
    | none => exact ⟨h1, h2⟩
    | some e =>
      show modelAbsent (setModelText { s with enums := jsSet s.enums ⟨key.file, newName⟩ e }
        key.file newName (some (joinWith "\n" e.values))) X
      constructor
      · exact setModelText_models_absent _ _ _ _ _ h1 hne
      · rw [setModelText_modelColumns]
        exact h2
  | model =>
    have hkey : FM.mk key.file newName ≠ X := by
      intro he
      subst he
      exact hne ⟨rfl, rfl⟩
    have habs2 : modelAbsent { setModelText s key.file newName oldText with
        modelColumns := jsSet (setModelText s key.file newName oldText).modelColumns
          ⟨key.file, newName⟩ oldColumns } X := by
      constructor
      · exact setModelText_models_absent _ _ _ _ _ h1 hne
      · show jsGet (jsSet (setModelText s key.file newName oldText).modelColumns
          ⟨key.file, newName⟩ oldColumns) X = none
        rw [jsGet_jsSet_ne _ _ _ _ hkey, setModelText_modelColumns]
        exact h2
    cases withRel with
    | false =>
      show modelAbsent (remap _ key ⟨key.file, newName⟩) X
      exact habs2
    | true =>
      show modelAbsent (remap (rewriteRelations _ key newName) key ⟨key.file, newName⟩) X
      have := rewriteRelations_absent _ key newName X habs2.1 habs2.2
      exact ⟨this.1, this.2⟩

theorem renameCore_enums_absent (s : Store) (key : FM) (newName : String) (item : Item)
    (oldText : Option String) (oldColumns : Option (List Column)) (oldEnum : Option Enum)
    (withRel : Bool) (X : FM)
    (hne : ¬(key.file = X.file ∧ newName = X.name))
    (h : jsGet s.enums X = none) :
    jsGet (renameCore s key newName item oldText oldColumns oldEnum withRel).enums X = none := by
  have hkey : FM.mk key.file newName ≠ X := by
    intro he
    subst he
    exact hne ⟨rfl, rfl⟩
  cases item with
  | enum =>
    cases oldEnum with
    | none => exact h
    | some e =>
      show jsGet (setModelText { s with enums := jsSet s.enums ⟨key.file, newName⟩ e }
        key.file newName (some (joinWith "\n" e.values))).enums X = none
      rw [setModelText_enums]
      show jsGet (jsSet s.enums ⟨key.file, newName⟩ e) X = none
      rw [jsGet_jsSet_ne _ _ _ _ hkey]
      exact h
  | model =>
    cases withRel with
    | false =>
      show jsGet (remap _ key ⟨key.file, newName⟩).enums X = none
      show jsGet (setModelText s key.file newName oldText).enums X = none
      rw [setModelText_enums]
      exact h
    | true =>
      show jsGet (remap (rewriteRelations _ key newName) key ⟨key.file, newName⟩).enums X = none
      show jsGet (rewriteRelations _ key newName).enums X = none
      rw [rewriteRelations_enums]
      show jsGet (setModelText s key.file newName oldText).enums X = none
      rw [setModelText_enums]
      exact h

theorem renameCore_fileKey (s : Store) (key : FM) (newName : String) (item : Item)
    (oldText : Option String) (oldColumns : Option (List Column)) (oldEnum : Option Enum)
    (withRel : Bool) (f : String)
    (h : (jsGet s.models f).isSome) :
    (jsGet (renameCore s key newName item oldText oldColumns oldEnum withRel).models f).isSome := by
  cases item with
  | enum =>
    cases oldEnum with
    | none => exact h
    | some e =>
      show (jsGet (setModelText { s with enums := jsSet s.enums ⟨key.file, newName⟩ e }
        key.file newName (some (joinWith "\n" e.values))).models f).isSome
      exact setModelText_fileKey _ _ _ _ _ h
  | model =>
    cases withRel with
    | false =>
      show (jsGet (remap _ key ⟨key.file, newName⟩).models f).isSome
      show (jsGet (setModelText s key.file newName oldText).models f).isSome
      exact setModelText_fileKey _ _ _ _ _ h
    | true =>
      show (jsGet (remap (rewriteRelations _ key newName) key ⟨key.file, newName⟩).models f).isSome
      show (jsGet (rewriteRelations _ key newName).models f).isSome
      rw [rewriteRelations_models]
      show (jsGet (setModelText s key.file newName oldText).models f).isSome
      exact setModelText_fileKey _ _ _ _ _ h

theorem renameCore_solutions (s : Store) (key : FM) (newName : String) (item : Item)
    (oldText : Option String) (oldColumns : Option (List Column)) (oldEnum : Option Enum)
    (withRel : Bool) :
    (renameCore s key newName item oldText oldColumns oldEnum withRel).solutions = s.solutions := by
  cases item with
  | enum =>
    cases oldEnum with
    | none => rfl
    | some e =>
      show (setModelText { s with enums := jsSet s.enums ⟨key.file, newName⟩ e }
        key.file newName (some (joinWith "\n" e.values))).solutions = s.solutions
      rw [setModelText_solutions]
  | model =>
    cases withRel with
    | false =>
      show (setModelText s key.file newName oldText).solutions = s.solutions
      rw [setModelText_solutions]
    | true =>
      show (rewriteRelations _ key newName).solutions = s.solutions
      rw [rewriteRelations_solutions]
      show (setModelText s key.file newName oldText).solutions = s.solutions
      rw [setModelText_solutions]

theorem applyAction_solutions (s : Store) (key : FM) (a : ActionData) :
    (applyAction s key a).solutions = s.solutions := by
  unfold applyAction
  cases hv : jsGet s.models key.file with
  | none => rfl
  | some value =>
    cases a with
    | skip it => cases it <;> rfl
    | remapAct src dst it => cases it <;> rfl
    | rename nn it => cases it <;> (rw [renameCore_solutions]; rfl)
    | renameRel nn it => cases it <;> (rw [renameCore_solutions]; rfl)

theorem applyAction_models_absent (s : Store) (key : FM) (a : ActionData) (X : FM)
    (hnc : createsModelKey X (key, a) = false)
    (h : modelAbsent s X) : modelAbsent (applyAction s key a) X := by
  have hdel : ∀ value, jsGet s.models key.file = some value →
      modelAbsent { s with models := jsSet s.models key.file (jsDelete value key.name), modelColumns := jsDelete s.modelColumns key } X := by
    intro value hv
    constructor
    · intro d hd
      dsimp only at hd
      by_cases hf : key.file = X.file
      · rw [← hf, jsGet_jsSet_self] at hd
        injection hd with hd
        subst hd
        by_cases hn : key.name = X.name
        · rw [← hn, jsGet_jsDelete_self]
        · rw [jsGet_jsDelete_ne _ _ _ hn]
          exact h.1 value (hf ▸ hv)
      · rw [jsGet_jsSet_ne _ _ _ _ hf] at hd
        exact h.1 d hd
    · show jsGet (jsDelete s.modelColumns key) X = none
      by_cases hk : key = X
      · rw [← hk, jsGet_jsDelete_self]
      · rw [jsGet_jsDelete_ne _ _ _ hk]
        exact h.2
  unfold applyAction
  cases hv : jsGet s.models key.file with
  | none => exact h
  | some value =>
    cases a with
    | skip it =>
      cases it with
      | model => exact hdel value hv
      | enum => exact hdel value hv
    | remapAct src dst it =>
      cases it with
      | model => exact h
      | enum => exact h
    | rename nn it =>
      have hne : ¬(key.file = X.file ∧ nn = X.name) := by
        intro ⟨ha, hb⟩
        simp [createsModelKey, ha, hb] at hnc
      cases it with
      | model => exact renameCore_absent _ key nn Item.model _ _ _ false X hne (hdel value hv)
      | enum =>
        refine renameCore_absent _ key nn Item.enum _ _ _ false X hne ?_
        exact hdel value hv
    | renameRel nn it =>
      have hne : ¬(key.file = X.file ∧ nn = X.name) := by
        intro ⟨ha, hb⟩
        simp [createsModelKey, ha, hb] at hnc
      cases it with
      | model => exact renameCore_absent _ key nn Item.model _ _ _ true X hne (hdel value hv)
      | enum =>
        refine renameCore_absent _ key nn Item.enum _ _ _ true X hne ?_
        exact hdel value hv

theorem applyAction_enums_absent (s : Store) (key : FM) (a : ActionData) (X : FM)
    (hnc : createsModelKey X (key, a) = false)
    (h : jsGet s.enums X = none) : jsGet (applyAction s key a).enums X = none := by
  have hdel : jsGet (jsDelete s.enums key) X = none := by
    by_cases hk : key = X
    · rw [← hk, jsGet_jsDelete_self]
    · rw [jsGet_jsDelete_ne _ _ _ hk]
      exact h
  unfold applyAction
  cases hv : jsGet s.models key.file with
  | none => exact h
  | some value =>
    cases a with
    | skip it =>
      cases it with
      | model => exact h
      | enum => exact hdel
    | remapAct src dst it =>
      cases it with
      | model => exact h
      | enum => exact hdel
    | rename nn it =>
      have hne : ¬(key.file = X.file ∧ nn = X.name) := by
        intro ⟨ha, hb⟩
        simp [createsModelKey, ha, hb] at hnc
      cases it with
      | model => exact renameCore_enums_absent _ key nn Item.model _ _ _ false X hne h
      | enum => exact renameCore_enums_absent _ key nn Item.enum _ _ _ false X hne hdel
    | renameRel nn it =>
      have hne : ¬(key.file = X.file ∧ nn = X.name) := by
        intro ⟨ha, hb⟩
        simp [createsModelKey, ha, hb] at hnc
      cases it with
      | model => exact renameCore_enums_absent _ key nn Item.model _ _ _ true X hne h
      | enum => exact renameCore_enums_absent _ key nn Item.enum _ _ _ true X hne hdel

theorem applyAction_fileKey (s : Store) (key : FM) (a : ActionData) (f : String)
    (h : (jsGet s.models f).isSome) : (jsGet (applyAction s key a).models f).isSome := by
  have hset : ∀ value, (jsGet (jsSet s.models key.file (jsDelete value key.name)) f).isSome := by
    intro value
    by_cases hf : key.file = f
    · subst hf
      rw [jsGet_jsSet_self]
      rfl
    · rw [jsGet_jsSet_ne _ _ _ _ hf]
      exact h
  unfold applyAction
  cases hv : jsGet s.models key.file with
  | none => exact h
  | some value =>
    cases a with
    | skip it => cases it <;> exact hset value
    | remapAct src dst it => cases it <;> exact h
    | rename nn it => cases it <;> exact renameCore_fileKey _ key nn _ _ _ _ false f (hset value)
    | renameRel nn it => cases it <;> exact renameCore_fileKey _ key nn _ _ _ _ true f (hset value)

theorem applyAction_skip_establishes (s : Store) (X : FM) (it : Item)
    (hfile : (jsGet s.models X.file).isSome) :
    modelAbsent (applyAction s X (ActionData.skip it)) X ∧
    (it = Item.enum → jsGet (applyAction s X (ActionData.skip it)).enums X = none) := by
  unfold applyAction
  cases hv : jsGet s.models X.file with
  | none => rw [hv] at hfile; simp at hfile
  | some value =>
    have habs : modelAbsent { s with models := jsSet s.models X.file (jsDelete value X.name), modelColumns := jsDelete s.modelColumns X } X := by
      constructor
      · intro d hd
        dsimp only at hd
        rw [jsGet_jsSet_self] at hd
        injection hd with hd
        subst hd
        rw [jsGet_jsDelete_self]
      · show jsGet (jsDelete s.modelColumns X) X = none
        rw [jsGet_jsDelete_self]
    cases it with
    | model =>
      refine ⟨habs, ?_⟩
      intro hcontra
      exact absurd hcontra (by simp)
    | enum =>
      refine ⟨habs, fun _ => ?_⟩
      show jsGet (jsDelete _ X) X = none
      rw [jsGet_jsDelete_self]

theorem setModelText_models_nodup (s : Store) (file name : String) (v : Option String)
    (h : NodupKeys s.models) : NodupKeys (setModelText s file name v).models := by
  unfold setModelText
  cases jsGet s.models file with
  | none => exact h
  | some fileData => exact nodupKeys_jsSet _ _ _ h

theorem renameCore_models_nodup (s : Store) (key : FM) (newName : String) (item : Item)
    (oldText : Option String) (oldColumns : Option (List Column)) (oldEnum : Option Enum)
    (withRel : Bool) (h : NodupKeys s.models) :
    NodupKeys (renameCore s key newName item oldText oldColumns oldEnum withRel).models := by
  cases item with
  | enum =>
    cases oldEnum with
    | none => exact h
    | some e =>
      show NodupKeys (setModelText { s with enums := jsSet s.enums ⟨key.file, newName⟩ e }
        key.file newName (some (joinWith "\n" e.values))).models
      exact setModelText_models_nodup _ _ _ _ h
  | model =>
    cases withRel with
    | false =>
      show NodupKeys (setModelText s key.file newName oldText).models
      exact setModelText_models_nodup _ _ _ _ h
    | true =>
      show NodupKeys (rewriteRelations _ key newName).models
      rw [rewriteRelations_models]
      show NodupKeys (setModelText s key.file newName oldText).models
      exact setModelText_models_nodup _ _ _ _ h

theorem applyAction_models_nodup (s : Store) (key : FM) (a : ActionData)
    (h : NodupKeys s.models) : NodupKeys (applyAction s key a).models := by
  have hset : ∀ value, NodupKeys (jsSet s.models key.file (jsDelete value key.name)) :=
    fun value => nodupKeys_jsSet _ _ _ h
  unfold applyAction
  cases hv : jsGet s.models key.file with
  | none => exact h
  | some value =>
    cases a with
    | skip it => cases it <;> exact hset value
    | remapAct src dst it => cases it <;> exact h
    | rename nn it => cases it <;> exact renameCore_models_nodup _ key nn _ _ _ _ false (hset value)
    | renameRel nn it => cases it <;> exact renameCore_models_nodup _ key nn _ _ _ _ true (hset value)

theorem foldl_actions_models_absent (q : List (FM × ActionData)) (t : Store) (X : FM)
    (hq : ∀ sol ∈ q, createsModelKey X sol = false) (h : modelAbsent t X) :
    modelAbsent (q.foldl (fun st sol => applyAction st sol.1 sol.2) t) X := by
  induction q generalizing t with
  | nil => exact h
  | cons sol rest ih =>
    rw [List.foldl_cons]
    refine ih _ (fun x hx => hq x (List.mem_cons_of_mem _ hx)) ?_
    exact applyAction_models_absent t sol.1 sol.2 X (hq sol (List.mem_cons_self _ _)) h

theorem foldl_actions_enums_absent (q : List (FM × ActionData)) (t : Store) (X : FM)
    (hq : ∀ sol ∈ q, createsModelKey X sol = false) (h : jsGet t.enums X = none) :
    jsGet (q.foldl (fun st sol => applyAction st sol.1 sol.2) t).enums X = none := by
  induction q generalizing t with
  | nil => exact h
  | cons sol rest ih =>
    rw [List.foldl_cons]
    refine ih _ (fun x hx => hq x (List.mem_cons_of_mem _ hx)) ?_
    exact applyAction_enums_absent t sol.1 sol.2 X (hq sol (List.mem_cons_self _ _)) h

theorem foldl_actions_fileKey (q : List (FM × ActionData)) (t : Store) (f : String)
    (h : (jsGet t.models f).isSome) :
    (jsGet (q.foldl (fun st sol => applyAction st sol.1 sol.2) t).models f).isSome := by
  induction q generalizing t with
  | nil => exact h
  | cons sol rest ih =>
    rw [List.foldl_cons]
    exact ih _ (applyAction_fileKey t sol.1 sol.2 f h)

theorem foldl_actions_solutions (q : List (FM × ActionData)) (t : Store) :
    (q.foldl (fun st sol => applyAction st sol.1 sol.2) t).solutions = t.solutions := by
  induction q generalizing t with
  | nil => rfl
  | cons sol rest ih =>
    rw [List.foldl_cons, ih, applyAction_solutions]

theorem foldl_actions_models_nodup (q : List (FM × ActionData)) (t : Store)
    (h : NodupKeys t.models) :
    NodupKeys (q.foldl (fun st sol => applyAction st sol.1 sol.2) t).models := by
  induction q generalizing t with
  | nil => exact h
  | cons sol rest ih =>
    rw [List.foldl_cons]
    exact ih _ (applyAction_models_nodup t sol.1 sol.2 h)

theorem grouping_foldl (l : List FM) (m : List (String × List FM)) (n : String) :
    (jsGet (l.foldl (fun m fm => jsSet m fm.name ((jsGet m fm.name).getD [] ++ [fm])) m) n).getD []
      = (jsGet m n).getD [] ++ l.filter (fun fm => fm.name == n) := by
  induction l generalizing m with
  | nil => simp
  | cons fm rest ih =>
    rw [List.foldl_cons, ih]
    by_cases hn : fm.name = n
    · subst hn
      rw [jsGet_jsSet_self]
      simp
    · rw [jsGet_jsSet_ne _ _ _ _ hn]
      have : (fm.name == n) = false := by simpa using hn
      simp [List.filter_cons, this]

theorem grouping_nodup (l : List FM) (m : List (String × List FM)) (h : NodupKeys m) :
    NodupKeys (l.foldl (fun m fm => jsSet m fm.name ((jsGet m fm.name).getD [] ++ [fm])) m) := by
  induction l generalizing m with
  | nil => exact h
  | cons fm rest ih =>
    rw [List.foldl_cons]
    exact ih _ (nodupKeys_jsSet _ _ _ h)

theorem matchingOf_lookup (t : Store) (n : String) :
    (jsGet (matchingOf t) n).getD [] =
      (doubledModelsOf t).filter (fun fm => fm.name == n) := by
  unfold matchingOf
  rw [grouping_foldl]
  rfl

theorem matchingOf_nodup (t : Store) : NodupKeys (matchingOf t) := by
  unfold matchingOf
  apply grouping_nodup
  simp [NodupKeys, jsKeys]

theorem matchingOf_mem_group (t : Store) (n : String) (grp : List FM)
    (h : (n, grp) ∈ matchingOf t) :
    grp = (doubledModelsOf t).filter (fun fm => fm.name == n) := by
  have hget := jsGet_of_mem_nodup h (matchingOf_nodup t)
  have := matchingOf_lookup t n
  rw [hget] at this
  exact this

theorem conflictsOf_sides (t : Store) (p : CPair) (hp : p ∈ conflictsOf t) :
    p.a ∈ doubledModelsOf t ∧ p.b ∈ doubledModelsOf t := by
  unfold conflictsOf at hp
  obtain ⟨assoc, hassoc, hpair⟩ := List.mem_flatMap.mp hp
  obtain ⟨xy, hxy, hback⟩ := List.mem_map.mp hpair
  have hmem := allPairs_mem hxy
  have hgrp := matchingOf_mem_group t assoc.1 assoc.2 hassoc
  have hxa : p.a = xy.1 := by rw [← hback]
  have hxb : p.b = xy.2 := by rw [← hback]
  rw [hxa, hxb]
  constructor
  · exact List.mem_of_mem_filter (hgrp ▸ hmem.1)
  · exact List.mem_of_mem_filter (hgrp ▸ hmem.2)

theorem doubled_mem_allFileModels (t : Store) (x : FM) (h : x ∈ doubledModelsOf t) :
    x ∈ allFileModels t := by
  unfold doubledModelsOf at h
  have h2 := List.mem_of_mem_filter h
  unfold flattenedOf at h2
  exact List.mem_of_mem_filter h2

theorem absent_not_mem_allFileModels (t : Store) (X : FM)
    (hnodup : NodupKeys t.models)
    (habs : ∀ d, jsGet t.models X.file = some d → jsGet d X.name = none) :
    X ∉ allFileModels t := by
  intro hX
  unfold allFileModels at hX
  obtain ⟨file, hfile, hmk⟩ := List.mem_flatMap.mp hX
  obtain ⟨p, hp, hpe⟩ := List.mem_map.mp hmk
  have hf : file.1 = X.file := congrArg FM.file hpe
  have hn : p.1 = X.name := congrArg FM.name hpe
  have hget : jsGet t.models X.file = some file.2 := by
    rw [← hf]
    exact jsGet_of_mem_nodup hfile hnodup
  have hnone := habs file.2 hget
  have hnotmem := jsGet_none_not_mem_keys hnone
  exact hnotmem (List.mem_map.mpr ⟨p, hp, hn⟩)

/-- C4 (confirmed): after a `skip(X)` in the solutions queue has been
applied by `applyPatches` — and provided no rename in the queue re-creates
the key `X`, since `getConflicts` replays the whole accumulated queue —
`X`'s name is gone from its file's model map, `X` is gone from
`modelColumns` (and from `enums` when `X` is an enum), `generateSchema`
emits no model block for `X`, and no subsequently recomputed conflict pair
(`getConflicts` on the resulting state) mentions `X` on either side. -/
theorem skip_removes_completely (s : Store) (X : FM) (it : Item)
    (q1 q2 : List (FM × ActionData))
    (hq : s.solutions = q1 ++ (X, ActionData.skip it) :: q2)
    (hnc : ∀ sol ∈ s.solutions, createsModelKey X sol = false)
    (hfile : (jsGet s.models X.file).isSome)
    (hnodup : NodupKeys s.models) :
    (∀ d, jsGet (applyPatches s).models X.file = some d → jsGet d X.name = none) ∧
    jsGet (applyPatches s).modelColumns X = none ∧
    (it = Item.enum → jsGet (applyPatches s).enums X = none) ∧
    X ∉ emittedModels (applyPatches s) ∧
    (∀ p ∈ getConflicts (applyPatches s), p.a ≠ X ∧ p.b ≠ X) := by
  have hnc2 : ∀ sol ∈ q2, createsModelKey X sol = false := by
    intro sol hsol
    apply hnc sol
    rw [hq]
    exact List.mem_append.mpr (Or.inr (List.mem_cons_of_mem _ hsol))
  have hPat : applyPatches s =
      q2.foldl (fun st sol => applyAction st sol.1 sol.2)
        (applyAction (q1.foldl (fun st sol => applyAction st sol.1 sol.2) s) X
          (ActionData.skip it)) := by
    unfold applyPatches
    rw [hq, List.foldl_append, List.foldl_cons]
  have hfmid : (jsGet (q1.foldl (fun st sol => applyAction st sol.1 sol.2) s).models
      X.file).isSome := foldl_actions_fileKey q1 s X.file hfile
  have hest := applyAction_skip_establishes
    (q1.foldl (fun st sol => applyAction st sol.1 sol.2) s) X it hfmid
  have habs : modelAbsent (applyPatches s) X := by
    rw [hPat]
    exact foldl_actions_models_absent q2 _ X hnc2 hest.1
  have henum : it = Item.enum → jsGet (applyPatches s).enums X = none := by
    intro hit
    rw [hPat]
    exact foldl_actions_enums_absent q2 _ X hnc2 (hest.2 hit)
  have hnodup1 : NodupKeys (applyPatches s).models := by
    unfold applyPatches
    exact foldl_actions_models_nodup _ _ hnodup
  have hsol1 : (applyPatches s).solutions = s.solutions := by
    unfold applyPatches
    exact foldl_actions_solutions _ _
  refine ⟨habs.1, habs.2, henum, ?_, ?_⟩
  · intro hX
    unfold emittedModels emittedModelEntries at hX
    obtain ⟨entry, hentry, hfst⟩ := List.mem_map.mp hX
    have hmem := List.mem_of_mem_filter hentry
    have hkeys : X ∈ jsKeys (applyPatches s).modelColumns :=
      List.mem_map.mpr ⟨entry, hmem, hfst⟩
    exact jsGet_none_not_mem_keys habs.2 hkeys
  · intro p hp
    unfold getConflicts at hp
    have habs2 : modelAbsent (applyPatches (applyPatches s)) X := by
      show modelAbsent ((applyPatches s).solutions.foldl
        (fun st sol => applyAction st sol.1 sol.2) (applyPatches s)) X
      rw [hsol1]
      exact foldl_actions_models_absent _ _ X hnc habs
    have hnodup2 : NodupKeys (applyPatches (applyPatches s)).models := by
      show NodupKeys ((applyPatches s).solutions.foldl
        (fun st sol => applyAction st sol.1 sol.2) (applyPatches s)).models
      exact foldl_actions_models_nodup _ _ hnodup1
    have hnot := absent_not_mem_allFileModels (applyPatches (applyPatches s)) X
      hnodup2 habs2.1
    have hsides := conflictsOf_sides _ p hp
    constructor
    · intro he
      exact hnot (he ▸ doubled_mem_allFileModels _ _ hsides.1)
    · intro he
      exact hnot (he ▸ doubled_mem_allFileModels _ _ hsides.2)

/-- Witness for `skip_removes_completely` at the concrete store `exC4`. -/
theorem skip_removes_completely_witness :
    jsGet (applyPatches exC4).modelColumns ⟨"f3", "User"⟩ = none ∧
    (⟨"f3", "User"⟩ : FM) ∉ emittedModels (applyPatches exC4) :=
  have h := skip_removes_completely exC4 ⟨"f3", "User"⟩ Item.model [] []
    (by rfl) (by decide) (by decide) (by unfold NodupKeys; decide)
  ⟨h.2.1, h.2.2.2.1⟩

theorem getReferredRelations_complete (t : Store) (fm : FM) (k : FM) (cols : List Column)
    (c : Column) (hk : (k, some cols) ∈ t.modelColumns) (hkne : k ≠ fm)
    (hc : c ∈ cols) (hr : refersTo fm.name c = true) :
    (k, c) ∈ getReferredRelations t fm := by
  unfold getReferredRelations
  apply List.mem_flatMap.mpr
  refine ⟨(k, some cols), List.mem_filter.mpr ⟨hk, by simpa using hkne⟩, ?_⟩
  exact List.mem_map.mpr ⟨c, List.mem_filter.mpr ⟨hc, hr⟩, rfl⟩

theorem getReferredRelations_sound (t : Store) (fm : FM) (rel : FM × Column)
    (h : rel ∈ getReferredRelations t fm) (hnodup : NodupKeys t.modelColumns) :
    ∃ cols, jsGet t.modelColumns rel.1 = some (some cols) ∧ rel.2 ∈ cols ∧
      refersTo fm.name rel.2 = true ∧ rel.1 ≠ fm := by
  unfold getReferredRelations at h
  obtain ⟨entry, hentry, hrel⟩ := List.mem_flatMap.mp h
  have hmem : entry ∈ t.modelColumns := List.mem_of_mem_filter hentry
  have hne : entry.1 ≠ fm := by
    have := List.of_mem_filter hentry
    simpa using this
  cases he : entry.2 with
  | none => rw [he] at hrel; simp at hrel
  | some columns =>
    rw [he] at hrel
    obtain ⟨c, hcf, hce⟩ := List.mem_map.mp hrel
    have hc1 : rel.1 = entry.1 := by rw [← hce]
    have hc2 : rel.2 = c := by rw [← hce]
    refine ⟨columns, ?_, ?_, ?_, hc1 ▸ hne⟩
    · rw [hc1]
      have : jsGet t.modelColumns entry.1 = some entry.2 := jsGet_of_mem_nodup hmem hnodup
      rw [he] at this
      exact this
    · rw [hc2]
      exact List.mem_of_mem_filter hcf
    · rw [hc2]
      exact List.of_mem_filter hcf

theorem rewriteFold_no_refersTo (n newName : String) (hnn : newName ≠ n) :
    ∀ (rels : List (FM × Column)) (t : Store),
    NodupKeys t.modelColumns →
    (∀ entry ∈ t.modelColumns, ∀ cols, entry.2 = some cols →
      ∀ c ∈ cols, refersTo n c = true →
        (entry.1, c.name) ∈ rels.map (fun r => (r.1, r.2.name))) →
    (∀ entry ∈ (rels.foldl (rewriteOneRelation newName) t).modelColumns, ∀ cols,
      entry.2 = some cols → ∀ c ∈ cols, refersTo n c = false) := by
  intro rels
  induction rels with
  | nil =>
    intro t _ hinv entry he cols hcols c hc
    by_cases hr : refersTo n c = true
    · exact absurd (hinv entry he cols hcols c hc hr) (by simp)
    · simpa using hr
  | cons r rest ih =>
    intro t hnodup hinv
    rw [List.foldl_cons]
    have hstep : NodupKeys (rewriteOneRelation newName t r).modelColumns ∧
        (∀ entry ∈ (rewriteOneRelation newName t r).modelColumns, ∀ cols,
          entry.2 = some cols → ∀ c ∈ cols, refersTo n c = true →
            (entry.1, c.name) ∈ rest.map (fun x => (x.1, x.2.name))) := by
      unfold rewriteOneRelation
      cases hj : (jsGet t.modelColumns r.1).join with
      | none =>
        refine ⟨hnodup, ?_⟩
        intro entry he cols hcols c hc hr
        have hh := hinv entry he cols hcols c hc hr
        simp only [List.map_cons, List.mem_cons] at hh
        rcases hh with hh | hh
        · exfalso
          have h1 : entry.1 = r.1 := congrArg Prod.fst hh
          have hget : jsGet t.modelColumns entry.1 = some entry.2 :=
            jsGet_of_mem_nodup he hnodup
          rw [h1, hcols] at hget
          rw [hget] at hj
          simp [Option.join] at hj
        · exact hh
      | some cols0 =>
        dsimp only
        cases hf : cols0.find? (fun c => c.name == r.2.name) with
        | none =>
          refine ⟨hnodup, ?_⟩
          intro entry he cols hcols c hc hr
          have hh := hinv entry he cols hcols c hc hr
          simp only [List.map_cons, List.mem_cons] at hh
          rcases hh with hh | hh
          · exfalso
            have h1 : entry.1 = r.1 := congrArg Prod.fst hh
            have h2 : c.name = r.2.name := congrArg Prod.snd hh
            have hget : jsGet t.modelColumns entry.1 = some entry.2 :=
              jsGet_of_mem_nodup he hnodup
            rw [h1, hcols] at hget
            rw [hget] at hj
            simp only [Option.join] at hj
            injection hj with hj
            subst hj
            have := List.find?_eq_none.mp hf c hc
            simp [h2] at this
          · exact hh
        | some col0 =>
          dsimp only
          constructor
          · exact nodupKeys_jsSet _ _ _ hnodup
          · intro entry he cols hcols c hc hr
            by_cases hk1 : entry.1 = r.1
            · have hget : jsGet (jsSet t.modelColumns r.1
                  (some (cols0.filter (fun c => ¬(c.name == r.2.name)) ++
                    [{ col0 with type := newName }]))) entry.1 =
                  some entry.2 := jsGet_of_mem_nodup he (nodupKeys_jsSet _ _ _ hnodup)
              rw [hk1, jsGet_jsSet_self] at hget
              injection hget with hget
              rw [← hget] at hcols
              injection hcols with hcols
              subst hcols
              rcases List.mem_append.mp hc with hcm | hcm
              · have hcold : c ∈ cols0 := List.mem_of_mem_filter hcm
                have hcname : (c.name == r.2.name) = false := by
                  have := List.of_mem_filter hcm
                  simpa using this
                have hold : (r.1, some cols0) ∈ t.modelColumns := by
                  apply jsGet_eq_some_mem
                  cases hv : jsGet t.modelColumns r.1 with
                  | none => rw [hv] at hj; simp [Option.join] at hj
                  | some v =>
                    rw [hv] at hj
                    simp only [Option.join, Option.some_bind, id] at hj
                    rw [hj]
                have hh := hinv (r.1, some cols0) hold cols0 rfl c hcold hr
                simp only [List.map_cons, List.mem_cons] at hh
                rcases hh with hh | hh
                · exfalso
                  have h2 : c.name = r.2.name := congrArg Prod.snd hh
                  simp [h2] at hcname
                · rw [hk1]
                  exact hh
              · exfalso
                simp only [List.mem_singleton] at hcm
                subst hcm
                unfold refersTo at hr
                simp only [Bool.and_eq_true, beq_iff_eq] at hr
                exact hnn hr.2
            · have hmem : entry ∈ t.modelColumns := mem_of_mem_jsSet_of_ne he hk1
              have hh := hinv entry hmem cols hcols c hc hr
              simp only [List.map_cons, List.mem_cons] at hh
              rcases hh with hh | hh
              · exact absurd (congrArg Prod.fst hh) hk1
              · exact hh
    exact ih (rewriteOneRelation newName t r) hstep.1 hstep.2

theorem rewriteFold_exists_newName (newName : String) :
    ∀ (rels : List (FM × Column)) (t : Store),
    ((∃ entry ∈ t.modelColumns, ∃ cols, entry.2 = some cols ∧ ∃ c ∈ cols, c.type = newName) ∨
     (∃ r ∈ rels, ∃ cols, jsGet t.modelColumns r.1 = some (some cols) ∧
        ∃ c ∈ cols, c.name = r.2.name)) →
    ∃ entry ∈ (rels.foldl (rewriteOneRelation newName) t).modelColumns, ∃ cols,
      entry.2 = some cols ∧ ∃ c ∈ cols, c.type = newName := by
  intro rels
  induction rels with
  | nil =>
    intro t h
    rcases h with h | h
    · exact h
    · obtain ⟨r, hr, _⟩ := h
      simp at hr
  | cons r rest ih =>
    intro t h
    rw [List.foldl_cons]
    apply ih (rewriteOneRelation newName t r)
    have hpresJ : (∃ entry ∈ t.modelColumns, ∃ cols, entry.2 = some cols ∧
        ∃ c ∈ cols, c.type = newName) →
        ∃ entry ∈ (rewriteOneRelation newName t r).modelColumns, ∃ cols,
          entry.2 = some cols ∧ ∃ c ∈ cols, c.type = newName := by
      intro ⟨e, he, cols, hcols, c, hc, hct⟩
      unfold rewriteOneRelation
      cases hj : (jsGet t.modelColumns r.1).join with
      | none => exact ⟨e, he, cols, hcols, c, hc, hct⟩
      | some cols0 =>
        dsimp only
        cases hf : cols0.find? (fun x => x.name == r.2.name) with
        | none => exact ⟨e, he, cols, hcols, c, hc, hct⟩
        | some col0 =>
          dsimp only
          by_cases hk : e.1 = r.1
          · refine ⟨(r.1, some (cols0.filter (fun x => ¬(x.name == r.2.name)) ++
              [{ col0 with type := newName }])), ?_, _, rfl, ?_⟩
            · exact jsGet_eq_some_mem (jsGet_jsSet_self _ _ _)
            · exact ⟨{ col0 with type := newName },
                List.mem_append.mpr (Or.inr (List.mem_singleton.mpr rfl)), rfl⟩
          · exact ⟨e, mem_jsSet_of_ne he hk, cols, hcols, c, hc, hct⟩
    rcases h with h | h
    · exact Or.inl (hpresJ h)
    · obtain ⟨r', hr', cols, hget, c, hc, hcn⟩ := h
      rcases List.mem_cons.mp hr' with hre | hre
      · left
        subst hre
        unfold rewriteOneRelation
        have hjoin : (jsGet t.modelColumns r'.1).join = some cols := by
          rw [hget]; rfl
        rw [hjoin]
        dsimp only
        cases hf : cols.find? (fun x => x.name == r'.2.name) with
        | none =>
          exfalso
          have := List.find?_eq_none.mp hf c hc
          simp [hcn] at this
        | some col0 =>
          dsimp only
          refine ⟨(r'.1, some (cols.filter (fun x => ¬(x.name == r'.2.name)) ++
            [{ col0 with type := newName }])), ?_, _, rfl, ?_⟩
          · exact jsGet_eq_some_mem (jsGet_jsSet_self _ _ _)
          · exact ⟨{ col0 with type := newName },
              List.mem_append.mpr (Or.inr (List.mem_singleton.mpr rfl)), rfl⟩
      · right
        refine ⟨r', hre, ?_⟩
        unfold rewriteOneRelation
        cases hj : (jsGet t.modelColumns r.1).join with
        | none => exact ⟨cols, hget, c, hc, hcn⟩
        | some cols0 =>
          dsimp only
          cases hf : cols0.find? (fun x => x.name == r.2.name) with
          | none => exact ⟨cols, hget, c, hc, hcn⟩
          | some col0 =>
            dsimp only
            by_cases hk : r'.1 = r.1
            · have hcols0 : cols = cols0 := by
                rw [hk] at hget
                rw [hget] at hj
                simp only [Option.join] at hj
                injection hj
              refine ⟨cols0.filter (fun x => ¬(x.name == r.2.name)) ++
                [{ col0 with type := newName }], ?_, ?_⟩
              · rw [hk, jsGet_jsSet_self]
              · by_cases hcn2 : c.name = r.2.name
                · refine ⟨{ col0 with type := newName },
                    List.mem_append.mpr (Or.inr (List.mem_singleton.mpr rfl)), ?_⟩
                  have hcol0 := List.find?_some hf
                  have : col0.name = r.2.name := by simpa using hcol0
                  show col0.name = r'.2.name
                  rw [this, ← hcn2, hcn]
                · refine ⟨c, List.mem_append.mpr (Or.inl ?_), hcn⟩
                  refine List.mem_filter.mpr ⟨hcols0 ▸ hc, ?_⟩
                  simpa using hcn2
            · refine ⟨cols, ?_, c, hc, hcn⟩
              rw [jsGet_jsSet_ne _ _ _ _ (fun he => hk he.symm)]
              exact hget
theorem applyAction_renameRel_model (s : Store) (f n newName : String)
    (value : List (String × Option String)) (hv : jsGet s.models f = some value) :
    applyAction s ⟨f, n⟩ (ActionData.renameRel newName Item.model) =
    renameCore
      { s with models := jsSet s.models f (jsDelete value n), modelColumns := jsDelete s.modelColumns ⟨f, n⟩ }
      ⟨f, n⟩ newName Item.model ((jsGet value n).join)
      ((jsGet s.modelColumns ⟨f, n⟩).join) none true := by
  unfold applyAction
  rw [show jsGet s.models (FM.mk f n).file = some value from hv]
  rfl

theorem renameCore_model_rel_modelColumns (s : Store) (f n newName : String)
    (oldText : Option String) (oldColumns : Option (List Column)) :
    (renameCore s ⟨f, n⟩ newName Item.model oldText oldColumns none true).modelColumns =
    (rewriteRelations
      { setModelText s f newName oldText with
        modelColumns := jsSet s.modelColumns ⟨f, newName⟩ oldColumns }
      ⟨f, n⟩ newName).modelColumns := by
  show (remap (rewriteRelations
      { setModelText s f newName oldText with
        modelColumns := jsSet (setModelText s f newName oldText).modelColumns
          ⟨f, newName⟩ oldColumns }
      ⟨f, n⟩ newName) ⟨f, n⟩ ⟨f, newName⟩).modelColumns = _
  rw [remap_modelColumns, setModelText_modelColumns]

theorem rewriteRelations_repairs (t : Store) (f n newName : String)
    (hnew : newName ≠ n)
    (hnodup : NodupKeys t.modelColumns)
    (hnone : jsGet t.modelColumns ⟨f, n⟩ = none)
    (href : ∃ m cols c, jsGet t.modelColumns m = some (some cols) ∧ c ∈ cols ∧
      refersTo n c = true ∧ m ≠ (⟨f, n⟩ : FM)) :
    (∀ entry ∈ (rewriteRelations t ⟨f, n⟩ newName).modelColumns, ∀ cols,
      entry.2 = some cols → ∀ c ∈ cols, refersTo n c = false) ∧
    (∃ entry ∈ (rewriteRelations t ⟨f, n⟩ newName).modelColumns, ∃ cols,
      entry.2 = some cols ∧ ∃ c ∈ cols, c.type = newName) := by
  constructor
  · have hinv : ∀ entry ∈ t.modelColumns, ∀ cols, entry.2 = some cols →
        ∀ c ∈ cols, refersTo n c = true →
          (entry.1, c.name) ∈
            (getReferredRelations t ⟨f, n⟩).map (fun r => (r.1, r.2.name)) := by
      intro entry he cols hcols c hc hr
      have hne : entry.1 ≠ (⟨f, n⟩ : FM) := by
        intro heq
        have hk : entry.1 ∈ jsKeys t.modelColumns := List.mem_map.mpr ⟨entry, he, rfl⟩
        rw [heq] at hk
        exact jsGet_none_not_mem_keys hnone hk
      have hmem : (entry.1, some cols) ∈ t.modelColumns := by
        rw [← hcols]
        exact he
      exact List.mem_map.mpr ⟨(entry.1, c),
        getReferredRelations_complete t ⟨f, n⟩ entry.1 cols c hmem hne hc hr, rfl⟩
    exact rewriteFold_no_refersTo n newName hnew (getReferredRelations t ⟨f, n⟩) t hnodup hinv
  · obtain ⟨m, cols, c, hget, hc, hr, hm1⟩ := href
    have hdisj : ∃ r ∈ getReferredRelations t ⟨f, n⟩, ∃ cs,
        jsGet t.modelColumns r.1 = some (some cs) ∧ ∃ c2 ∈ cs, c2.name = r.2.name :=
      ⟨(m, c), getReferredRelations_complete t ⟨f, n⟩ m cols c
        (jsGet_eq_some_mem hget) hm1 hc hr, cols, hget, c, hc, rfl⟩
    exact rewriteFold_exists_newName newName (getReferredRelations t ⟨f, n⟩) t (Or.inr hdisj)

/-- C3 counterexample: the rename-rel repair rewrites only columns that are
picked up by `getReferredRelations`, i.e. columns carrying an `@relation`
constraint. A plain column typed `A` with no relation constraint (`C.x` in
`exC3`) is left typed `A` even though another column of the same model
(`C.author`) does relation-reference `A` and is retyped to `B`, so the
claim's "zero remaining columns anywhere typed A" fails. -/
theorem renameRel_repair_skips_plain_columns :
    refersTo "A" ⟨"author", "A", ["@relation(fields:", "[aId],", "references:", "[id])"]⟩ = true ∧
    (jsGet (applyPatches exC3).modelColumns ⟨"f2", "C"⟩).join =
      some [⟨"x", "A", []⟩,
        ⟨"author", "B", ["@relation(fields:", "[aId],", "references:", "[id])"]⟩] ∧
    ((jsGet (applyPatches exC3).modelColumns ⟨"f2", "C"⟩).join.getD []).any
      (fun c => c.type == "A") = true := by
  decide

/-- C3 (amended): for a model `file:n` with a queued `rename-rel(n → newName)`
solution, if some *relation* column elsewhere references `n` then after
`applyPatches` no relation column anywhere references `n` (every column
satisfying the source's `@relation`-constraint-and-type test is retyped),
and at least one column is typed `newName`. Plain columns typed `n` without
a relation constraint are outside the repair (see the counterexample). -/
theorem renameRel_repairs_relation_columns (s : Store) (f n newName : String)
    (hsol : s.solutions = [(⟨f, n⟩, ActionData.renameRel newName Item.model)])
    (hnew : newName ≠ n)
    (hfile : (jsGet s.models f).isSome)
    (hnodup : NodupKeys s.modelColumns)
    (href : ∃ m cols c, jsGet s.modelColumns m = some (some cols) ∧ c ∈ cols ∧
      refersTo n c = true ∧ m ≠ (⟨f, n⟩ : FM) ∧ m ≠ (⟨f, newName⟩ : FM)) :
    (∀ entry ∈ (applyPatches s).modelColumns, ∀ cols, entry.2 = some cols →
      ∀ c ∈ cols, refersTo n c = false) ∧
    (∃ entry ∈ (applyPatches s).modelColumns, ∃ cols, entry.2 = some cols ∧
      ∃ c ∈ cols, c.type = newName) := by
  obtain ⟨value, hv⟩ := Option.isSome_iff_exists.mp hfile
  have hAP : applyPatches s = applyAction s ⟨f, n⟩ (ActionData.renameRel newName Item.model) := by
    unfold applyPatches
    rw [hsol]
    rfl
  rw [hAP, applyAction_renameRel_model s f n newName value hv,
    renameCore_model_rel_modelColumns]
  refine rewriteRelations_repairs _ f n newName hnew ?_ ?_ ?_
  · show NodupKeys (jsSet (jsDelete s.modelColumns ⟨f, n⟩) ⟨f, newName⟩
      ((jsGet s.modelColumns ⟨f, n⟩).join))
    exact nodupKeys_jsSet _ _ _ (nodupKeys_jsDelete _ _ hnodup)
  · show jsGet (jsSet (jsDelete s.modelColumns ⟨f, n⟩) ⟨f, newName⟩
      ((jsGet s.modelColumns ⟨f, n⟩).join)) ⟨f, n⟩ = none
    rw [jsGet_jsSet_ne _ _ _ _ (fun h => hnew (congrArg FM.name h)),
      jsGet_jsDelete_self]
  · obtain ⟨m, cols, c, hget, hc, hr, hm1, hm2⟩ := href
    refine ⟨m, cols, c, ?_, hc, hr, hm1⟩
    show jsGet (jsSet (jsDelete s.modelColumns ⟨f, n⟩) ⟨f, newName⟩
      ((jsGet s.modelColumns ⟨f, n⟩).join)) m = some (some cols)
    rw [jsGet_jsSet_ne _ _ _ _ (Ne.symm hm2), jsGet_jsDelete_ne _ _ _ (Ne.symm hm1)]
    exact hget

/-- Witness for the amended C3 theorem at the concrete store `exC3`:
`f2:C.author` relation-references `f1:A`, and after the queued
`rename-rel(A → B)` no relation column references `A` while `C` holds a
column typed `B`. -/
theorem renameRel_repairs_relation_columns_witness :
    (∀ entry ∈ (applyPatches exC3).modelColumns, ∀ cols, entry.2 = some cols →
      ∀ c ∈ cols, refersTo "A" c = false) ∧
    (∃ entry ∈ (applyPatches exC3).modelColumns, ∃ cols, entry.2 = some cols ∧
      ∃ c ∈ cols, c.type = "B") :=
  renameRel_repairs_relation_columns exC3 "f1" "A" "B" rfl (by decide) (by decide)
    (by unfold NodupKeys; decide)
    ⟨⟨"f2", "C"⟩,
      [⟨"author", "A", ["@relation(fields:", "[aId],", "references:", "[id])"]⟩, ⟨"x", "A", []⟩],
      ⟨"author", "A", ["@relation(fields:", "[aId],", "references:", "[id])"]⟩,
      by decide, by decide, by decide, by decide, by decide⟩

theorem countP_flatMapAux {α β : Type} (p : β → Bool) (f : α → List β) (l : List α) :
    (l.flatMap f).countP p = (l.map (fun a => (f a).countP p)).sum := by
  induction l with
  | nil => simp
  | cons a t ih => simp [List.flatMap_cons, List.countP_append, ih]

theorem sum_map_eq_lookup {β : Type} (m : List (String × β)) (n : String) (g : β → Nat)
    (h : NodupKeys m) :
    (m.map (fun a => if a.1 = n then g a.2 else 0)).sum = ((jsGet m n).map g).getD 0 := by
  induction m with
  | nil => simp [jsGet]
  | cons e rest ih =>
    have hsplit : e.1 ∉ rest.map Prod.fst ∧ (rest.map Prod.fst).Nodup := by
      have h2 := h
      simp only [NodupKeys, jsKeys, List.map_cons, List.nodup_cons] at h2
      exact h2
    by_cases he : e.1 = n
    · rw [List.map_cons, List.sum_cons, if_pos he]
      have hnot : n ∉ jsKeys rest := by
        rw [← he]
        exact hsplit.1
      have hz : (rest.map (fun a => if a.1 = n then g a.2 else 0)).sum = 0 := by
        apply List.sum_eq_zero
        intro x hx
        obtain ⟨a, ha, hax⟩ := List.mem_map.mp hx
        rw [← hax]
        have han : a.1 ≠ n := by
          intro hhn
          exact hnot (hhn ▸ List.mem_map.mpr ⟨a, ha, rfl⟩)
        rw [if_neg han]
      rw [hz, show jsGet (e :: rest) n = some e.2 from by simp [jsGet, he]]
      simp
    · rw [List.map_cons, List.sum_cons, if_neg he,
        show jsGet (e :: rest) n = jsGet rest n from by simp [jsGet, he],
        ih hsplit.2, Nat.zero_add]

theorem countP_conflicts (t : Store) (n : String) :
    (conflictsOf t).countP (fun p => p.a.name == n) =
      (allPairs ((doubledModelsOf t).filter (fun fm => fm.name == n))).length := by
  unfold conflictsOf
  rw [countP_flatMapAux]
  have hmap : (matchingOf t).map (fun assoc =>
        ((allPairs assoc.2).map
          (fun p => CPair.mk p.1 (tagOf t p.1) p.2 (tagOf t p.2))).countP
          (fun p => p.a.name == n)) =
      (matchingOf t).map (fun assoc =>
        if assoc.1 = n then (allPairs assoc.2).length else 0) := by
    apply List.map_congr_left
    intro assoc ha
    have hgrp := matchingOf_mem_group t assoc.1 assoc.2 ha
    rw [List.countP_map]
    by_cases hn : assoc.1 = n
    · rw [if_pos hn]
      apply List.countP_eq_length.mpr
      intro xy hxy
      have hm1 : xy.1 ∈ assoc.2 := (allPairs_mem hxy).1
      rw [hgrp] at hm1
      have hname := List.of_mem_filter hm1
      show (xy.1.name == n) = true
      rw [← hn]
      exact hname
    · rw [if_neg hn]
      apply List.countP_eq_zero.mpr
      intro xy hxy
      have hm1 : xy.1 ∈ assoc.2 := (allPairs_mem hxy).1
      rw [hgrp] at hm1
      have hname : xy.1.name = assoc.1 := by simpa using List.of_mem_filter hm1
      show ¬((xy.1.name == n) = true)
      simp [hname, hn]
  rw [hmap, sum_map_eq_lookup (matchingOf t) n (fun grp => (allPairs grp).length)
    (matchingOf_nodup t)]
  cases hg : jsGet (matchingOf t) n with
  | none =>
    have hlook := matchingOf_lookup t n
    rw [hg] at hlook
    simp only [Option.getD_none] at hlook
    rw [← hlook]
    simp [allPairs]
  | some grp =>
    have hlook := matchingOf_lookup t n
    rw [hg] at hlook
    simp only [Option.getD_some] at hlook
    rw [← hlook]
    simp

theorem freqMap_lookup (t : Store) (n : String) :
    (jsGet (freqMapOf t) n).getD 0 =
      ((allFileModels t).filter (freqCond t)).countP (fun fm => fm.name == n) := by
  unfold freqMapOf
  rw [show ((allFileModels t).filter (freqCond t)).foldl (fun m fm => jsBump m fm.name) [] =
      (((allFileModels t).filter (freqCond t)).map FM.name).foldl jsBump [] from
    (List.foldl_map _ _ _ _).symm]
  rw [foldl_jsBump_count, List.countP_map]
  simp only [jsGet, Option.getD_none, Nat.zero_add]
  rfl

theorem countP_flattened_le_freq (t : Store) (n : String) :
    ((flattenedOf t).filter (fun fm => fm.name == n)).length ≤
      ((allFileModels t).filter (freqCond t)).countP (fun fm => fm.name == n) := by
  rw [← List.countP_eq_length_filter]
  unfold flattenedOf
  rw [List.countP_filter, List.countP_filter]
  apply List.countP_mono_left
  intro fm hfm hcond
  simp only [Bool.and_eq_true, decide_eq_true_eq] at hcond
  simp only [Bool.and_eq_true, decide_eq_true_eq]
  refine ⟨hcond.1, ?_⟩
  unfold freqCond
  cases hcr : t.config.crossFileRelations <;>
    simp [hcond.2.1, hcond.2.2]

theorem countP_conflicts_flattened (t : Store) (n : String) :
    (conflictsOf t).countP (fun p => p.a.name == n) =
      ((flattenedOf t).filter (fun fm => fm.name == n)).length *
        (((flattenedOf t).filter (fun fm => fm.name == n)).length - 1) / 2 := by
  rw [countP_conflicts]
  have hdf : (doubledModelsOf t).filter (fun fm => fm.name == n) =
      ((flattenedOf t).filter (fun fm => fm.name == n)).filter
        (fun fm => (endsWithAny fm.render (duplicatedOf t)).isSome) := by
    unfold doubledModelsOf
    rw [List.filter_comm]
  rw [hdf, allPairs_length]
  by_cases hk : 2 ≤ ((flattenedOf t).filter (fun fm => fm.name == n)).length
  · have hdup : (":" ++ n) ∈ duplicatedOf t := by
      have hge := countP_flattened_le_freq t n
      have hgt : 1 < (jsGet (freqMapOf t) n).getD 0 := by
        rw [freqMap_lookup]
        omega
      cases hg : jsGet (freqMapOf t) n with
      | none => rw [hg] at hgt; simp at hgt
      | some c =>
        rw [hg] at hgt
        simp only [Option.getD_some] at hgt
        unfold duplicatedOf
        exact List.mem_map.mpr ⟨(n, c),
          List.mem_filter.mpr ⟨jsGet_eq_some_mem hg, by simpa using hgt⟩, rfl⟩
    have hall : ∀ fm ∈ (flattenedOf t).filter (fun fm => fm.name == n),
        ((endsWithAny fm.render (duplicatedOf t)).isSome = true) := by
      intro fm hfm
      have hname : fm.name = n := by simpa using List.of_mem_filter hfm
      unfold endsWithAny
      rw [List.find?_isSome]
      refine ⟨":" ++ n, hdup, ?_⟩
      show strEndsWith (strToLower fm.render) (strToLower (":" ++ n)) = true
      have hrend : fm.render = fm.file ++ (":" ++ n) := by
        unfold FM.render
        rw [hname, String.append_assoc]
      rw [hrend, strToLower_append]
      exact strEndsWith_append _ _
    rw [List.filter_eq_self.mpr hall]
  · have hle := List.length_filter_le
      (fun fm => (endsWithAny fm.render (duplicatedOf t)).isSome)
      ((flattenedOf t).filter (fun fm => fm.name == n))
    have e1 : (((flattenedOf t).filter (fun fm => fm.name == n)).filter
        (fun fm => (endsWithAny fm.render (duplicatedOf t)).isSome)).length - 1 = 0 := by
      omega
    have e2 : ((flattenedOf t).filter (fun fm => fm.name == n)).length - 1 = 0 := by
      omega
    rw [e1, e2]
    simp

/-- C1: conflict completeness of the detector. For any store and any bare
model name `n`, `getConflicts` returns exactly `k*(k-1)/2` conflict pairs
whose sides are named `n`, where `k` is the number of non-shadowed,
non-extended FileModels bearing the exact name `n` after the queued
solutions are applied. In particular once all but one of the conflicting
FileModels have been skipped or remapped (skipping deletes the model,
remapping shadows it, so `k` drops to `1`), zero pairs remain for that
name. -/
theorem conflict_completeness (s : Store) (n : String) :
    (getConflicts s).countP (fun p => p.a.name == n) =
      ((flattenedOf (applyPatches s)).filter (fun fm => fm.name == n)).length *
        (((flattenedOf (applyPatches s)).filter (fun fm => fm.name == n)).length - 1) / 2 := by
  unfold getConflicts
  exact countP_conflicts_flattened (applyPatches s) n

end PrismaUtil
